import Mathlib

/-!
A verification development for the Exo installer (src/src/exoinstall.py).

The filesystem is modelled as an association list from absolute paths
(lists of name components) to entries; an entry is a directory or a file
with its byte content (a String).  The installer state carries the
filesystem, the stream of pending interactive answers (the decision
source of the spec, already restricted to valid options), the two
process-lifetime policy flags, the dry-run flag and a log of the
copy/delete actions performed.  Fallible Python operations (those that
can raise) are modelled with an explicit error result that carries the
state at the point of the raise, matching the fact that an uncaught
Python exception aborts the run while leaving the filesystem as it was.

The content hash (get_file_hash, SHA-256 in the source) is passed in as
an arbitrary function on contents: per the spec the exact algorithm is
not part of the compatibility surface, so every theorem quantifies over
it.  External collaborators (package managers, git, matugen, which-style
PATH lookups) are opaque per the spec; subprocess invocations made
through run_command only affect the modelled filesystem where the
spawned command is itself a file operation (cp, rm).
-/

namespace Exo

abbrev Path := List String

inductive Entry : Type where
  | dir : Entry
  | file : String → Entry
deriving DecidableEq, Repr

/-- A filesystem: an association list from absolute paths to entries. -/
abbrev FS := List (Path × Entry)

/-- Lookup of a path, first binding wins (models the unique filesystem entry). -/
def fsGet : FS → Path → Option Entry
  | [], _ => none
  | (q, e) :: rest, p => if q = p then some e else fsGet rest p

/-- Remove every binding of a path (models os.remove / overwrite preparation). -/
def fsErase (fs : FS) (p : Path) : FS :=
  fs.filter (fun pr => decide (pr.1 ≠ p))

/-- Create or overwrite the entry at a path. -/
def fsSet (fs : FS) (p : Path) (e : Entry) : FS :=
  (p, e) :: fsErase fs p

/-- os.path.exists -/
def pathExists (fs : FS) (p : Path) : Bool :=
  (fsGet fs p).isSome

/-- os.path.isdir -/
def isDir (fs : FS) (p : Path) : Bool :=
  fsGet fs p = some Entry.dir

/-- Boolean path-prefix test (p is an ancestor-or-self of q). -/
def isPre : Path → Path → Bool
  | [], _ => true
  | _ :: _, [] => false
  | a :: as, b :: bs => a == b && isPre as bs

/-- The last path component, i.e. os.path.basename. -/
def baseName (p : Path) : String :=
  p.getLastD ""

/-- os.path.dirname: drop the last component. -/
def dirName (p : Path) : Path :=
  p.dropLast

/--
get_file_hash (exoinstall.py lines 205-213): opens the file, reads it and
returns the hex digest; an IOError (missing path, directory, unreadable
file) is caught and None is returned.  The digest algorithm is the
parameter h.
-/
def getFileHash (h : String → String) (fs : FS) (p : Path) : Option String :=
  match fsGet fs p with
  | some (Entry.file c) => some (h c)
  | _ => none

/--
os.makedirs(path, exist_ok=True): walks the components from the root,
creating each missing directory; hitting an existing non-directory entry
raises (second component false), with the directories created so far
kept (Python creates them level by level before raising).
-/
def mkdirsGo : FS → Path → List String → FS × Bool
  | fs, _, [] => (fs, true)
  | fs, pre, c :: rest =>
    match fsGet fs (pre ++ [c]) with
    | some Entry.dir => mkdirsGo fs (pre ++ [c]) rest
    | some (Entry.file _) => (fs, false)
    | none => mkdirsGo (fsSet fs (pre ++ [c]) Entry.dir) (pre ++ [c]) rest

def mkdirs (fs : FS) (p : Path) : FS × Bool :=
  mkdirsGo fs [] p

/--
Write a file at a path (open(p, "w") / the final write of a copy):
raises (none) if the target is a directory or its parent directory does
not exist.
-/
def writeFile (fs : FS) (p : Path) (c : String) : Option FS :=
  if isDir fs p then none
  else if dirName p = ([] : Path) ∨ isDir fs (dirName p) then
    some (fsSet fs p (Entry.file c))
  else none

/--
shutil.copy2(src, dst): src must be a readable file; when dst is a
directory the copy lands at dst/basename(src); metadata preservation has
no filesystem-shape effect in the model.
-/
def copy2 (fs : FS) (src dst : Path) : Option FS :=
  match fsGet fs src with
  | some (Entry.file c) =>
    let target := if isDir fs dst then dst ++ [baseName src] else dst
    writeFile fs target c
  | _ => none

/--
shutil.copyfile(src, dst): like copy2 but a directory dst raises instead
of redirecting into it.
-/
def copyfile (fs : FS) (src dst : Path) : Option FS :=
  match fsGet fs src with
  | some (Entry.file c) =>
    if isDir fs dst then none else writeFile fs dst c
  | _ => none

/-- Erase a path and everything below it (the effect of shutil.rmtree). -/
def eraseTree (fs : FS) (p : Path) : FS :=
  fs.filter (fun pr => !(isPre p pr.1))

/-- shutil.rmtree: the argument must be an existing directory. -/
def rmtree (fs : FS) (p : Path) : Option FS :=
  if isDir fs p then some (eraseTree fs p) else none

/-- All entries strictly below a root, as (relative path, entry) pairs. -/
def subEntries (fs : FS) (root : Path) : List (Path × Entry) :=
  fs.filterMap (fun pr =>
    if isPre root pr.1 && pr.1 ≠ root then
      some (pr.1.drop root.length, pr.2)
    else none)

/--
shutil.copytree(src, dst): raises if dst already exists or src is not a
directory; otherwise creates dst and copies every entry below src.
-/
def copytree (fs : FS) (src dst : Path) : Option FS :=
  if pathExists fs dst then none
  else match fsGet fs src with
    | some Entry.dir =>
      some ((subEntries fs src).foldl
        (fun acc pe => fsSet acc (dst ++ pe.1) pe.2)
        (fsSet fs dst Entry.dir))
    | _ => none

/--
shutil.move(src, dst): when dst is an existing directory the real target
is dst/basename(src); moving onto an existing target raises; otherwise
the whole subtree at src is relocated.
-/
def moveTree (fs : FS) (src dst : Path) : Option FS :=
  match fsGet fs src with
  | none => none
  | some _ =>
    let real := if isDir fs dst then dst ++ [baseName src] else dst
    if pathExists fs real then none
    else
      some ((fs.filterMap (fun pr =>
        if isPre src pr.1 then some (real ++ pr.1.drop src.length, pr.2)
        else none)) ++ eraseTree fs src)

/--
os.walk(root) with the source's pruning of __pycache__ directories
(update_install lines 921-922, 933-934): the relative paths of all files
below root none of whose ancestor directories below root is named
__pycache__.  The enumeration order is the binding order of the
filesystem - a superset of the orders a topdown os.walk can produce,
since a real walk always emits a directory's own files before any file
of its subdirectories (siblings in unspecified order).  Theorems
quantified over the filesystem cover every real order; a concrete input
meant to trace a real run must use a binding order a topdown walk can
produce.
-/
def walkFiles (fs : FS) (root : Path) : List Path :=
  fs.filterMap (fun pr =>
    match pr.2 with
    | Entry.file _ =>
      if isPre root pr.1 && pr.1 ≠ root
          && !((pr.1.drop root.length).dropLast.contains "__pycache__") then
        some (pr.1.drop root.length)
      else none
    | Entry.dir => none)

/-- The fixed protected basenames (ExoInstaller.__init__, lines 35-39). -/
def protectedFiles : List String :=
  ["user_settings.json", "colors.scss", "preview-colors.scss"]

/-- A copy (shutil.copy2 / copyfile) or delete (os.remove) that was performed. -/
inductive Action : Type where
  | copy : Path → Action
  | del : Path → Action
deriving DecidableEq, Repr

/--
The installer state: the filesystem, the pending valid answers of the
interactive decision source, the two auto-confirm flags
(ExoInstaller.__init__ lines 40-41), the dry-run flag and the log of
performed copy/delete actions.
-/
structure St : Type where
  fs : FS
  answers : List String
  autoOv : Bool
  autoDel : Bool
  dryRun : Bool
  log : List Action
deriving DecidableEq, Repr

/--
A run outcome: ok is a normal return, err is an uncaught Python
exception (or sys.exit) propagating out of the procedure; both carry the
state at that point, since raising does not undo filesystem effects.
-/
inductive Res : Type where
  | ok : St → Res
  | err : St → Res
deriving DecidableEq, Repr

/-- The state carried by an outcome. -/
def Res.st : Res → St
  | Res.ok s => s
  | Res.err s => s

/--
get_user_choice (lines 159-203): reads keystrokes, discarding those not
among the offered options, until a valid option arrives, which it
returns.  The answer stream holds the keystrokes still pending; an
exhausted stream (the decision source would block forever) is
determinized to the first option so the model stays total - every
theorem below supplies or quantifies over the stream.
-/
def popChoice (opts : List String) : List String → String × List String
  | [] => (opts.headD "n", [])
  | a :: rest => if opts.contains a then (a, rest) else popChoice opts rest

def getUserChoice (opts : List String) (s : St) : String × St :=
  let (c, rest) := popChoice opts s.answers
  (c, { s with answers := rest })

/--
compare_and_copy (lines 959-983): hash both sides; a missing destination
hash means a new file (makedirs the parent, copy2, both may raise);
differing hashes mean a mismatch, overwritten automatically when
auto_confirm_overwrite is set and otherwise upon a y answer (copy2 may
raise); equal hashes mean no action.
-/
def compareAndCopy (h : String → String) (src dst : Path) (s : St) : Res :=
  let sourceHash := getFileHash h s.fs src
  let destHash := getFileHash h s.fs dst
  if destHash = none then
    match mkdirs s.fs (dirName dst) with
    | (fs1, false) => Res.err { s with fs := fs1 }
    | (fs1, true) =>
      match copy2 fs1 src dst with
      | none => Res.err { s with fs := fs1 }
      | some fs2 => Res.ok { s with fs := fs2, log := s.log ++ [Action.copy dst] }
  else if sourceHash ≠ destHash then
    if s.autoOv then
      match copy2 s.fs src dst with
      | none => Res.err s
      | some fs2 => Res.ok { s with fs := fs2, log := s.log ++ [Action.copy dst] }
    else
      let (c, s1) := getUserChoice ["y", "n"] s
      if c = "y" then
        match copy2 s1.fs src dst with
        | none => Res.err s1
        | some fs2 => Res.ok { s1 with fs := fs2, log := s1.log ++ [Action.copy dst] }
      else Res.ok s1
  else Res.ok s

/--
prompt_and_delete (lines 985-997): delete the orphan automatically when
auto_confirm_delete is set, otherwise upon a y answer.  The path comes
from a directory walk, so os.remove succeeds in the model.
-/
def promptAndDelete (p : Path) (s : St) : St :=
  if s.autoDel then
    { s with fs := fsErase s.fs p, log := s.log ++ [Action.del p] }
  else
    let (c, s1) := getUserChoice ["y", "n"] s
    if c = "y" then
      { s1 with fs := fsErase s1.fs p, log := s1.log ++ [Action.del p] }
    else s1

/--
The first walk of update_install (lines 921-931): each walked source
file whose basename is not protected is compared and copied; an
exception aborts the whole run (nothing in update_install catches it).
-/
def runPhase1 (h : String → String) (sp dp : Path) : List Path → St → Res
  | [], s => Res.ok s
  | rel :: rest, s =>
    if protectedFiles.contains (baseName rel) then runPhase1 h sp dp rest s
    else
      match compareAndCopy h (sp ++ rel) (dp ++ rel) s with
      | Res.err s1 => Res.err s1
      | Res.ok s1 => runPhase1 h sp dp rest s1

/--
The second walk of update_install (lines 933-945): each walked
destination file whose basename is not protected and whose source path
does not exist is offered for deletion.
-/
def runPhase2 (sp dp : Path) : List Path → St → St
  | [], s => s
  | rel :: rest, s =>
    if protectedFiles.contains (baseName rel) then runPhase2 sp dp rest s
    else if pathExists s.fs (sp ++ rel) then runPhase2 sp dp rest s
    else runPhase2 sp dp rest (promptAndDelete (dp ++ rel) s)

/--
One core-folder iteration of update_install (lines 906-945): a
destination that is not a directory is skipped with a warning; otherwise
the source walk is reconciled and then the (updated) destination walk is
scanned for orphans.
-/
def updateFolder (h : String → String) (srcDir cfgDir : Path) (f : String)
    (s : St) : Res :=
  let sp := srcDir ++ [f]
  let dp := cfgDir ++ [f]
  if isDir s.fs dp then
    match runPhase1 h sp dp (walkFiles s.fs sp) s with
    | Res.err s1 => Res.err s1
    | Res.ok s1 => Res.ok (runPhase2 sp dp (walkFiles s1.fs dp) s1)
  else Res.ok s

def updateFolders (h : String → String) (srcDir cfgDir : Path) :
    List String → St → Res
  | [], s => Res.ok s
  | f :: rest, s =>
    match updateFolder h srcDir cfgDir f s with
    | Res.err s1 => Res.err s1
    | Res.ok s1 => updateFolders h srcDir cfgDir rest s1

/-- The core folders of full_install and update_install (lines 856, 906). -/
def coreFolders : List String := ["ignis", "matugen"]

/-- The destination of the default preview-colors.scss (lines 950-952). -/
def previewDest (cfgDir : Path) : Path :=
  cfgDir ++ ["ignis", "styles", "preview-colors.scss"]

/--
update_install (lines 889-957): resolve the two policy flags from one
prompt each (a y answer sets the flag, an n answer leaves it as it was),
reconcile each core folder, then copy the default preview-colors.scss
if it is absent (shutil.copyfile may raise).
-/
def updateInstall (h : String → String) (srcDir cfgDir : Path) (s : St) : Res :=
  let (ov, s1) := getUserChoice ["y", "n"] s
  let s1 := if ov = "y" then { s1 with autoOv := true } else s1
  let (de, s2) := getUserChoice ["y", "n"] s1
  let s2 := if de = "y" then { s2 with autoDel := true } else s2
  match updateFolders h srcDir cfgDir coreFolders s2 with
  | Res.err s3 => Res.err s3
  | Res.ok s3 =>
    if pathExists s3.fs (previewDest cfgDir) then Res.ok s3
    else
      match copyfile s3.fs (srcDir ++ ["exodefaults", "preview-colors.scss"])
          (previewDest cfgDir) with
      | none => Res.err s3
      | some fs4 =>
        Res.ok { s3 with
                 fs := fs4
                 log := s3.log ++ [Action.copy (previewDest cfgDir)] }

/-- Append a string suffix to the last path component (Python's path + "suffix"). -/
def addSuffix (p : Path) (suf : String) : Path :=
  dirName p ++ [baseName p ++ suf]

/-- The model's home directory (os.path.expanduser resolves relative to it). -/
def homeDir : Path := ["home", "user"]

/-- The directory of install_as_command (line 1001-1002). -/
def usrLocalBin : Path := ["usr", "local", "bin"]

/-- The installed exoupdate command; shutil.which("exoupdate") is modelled as
this file existing (the canonical location the script installs itself to). -/
def exoCmdPath : Path := usrLocalBin ++ ["exoupdate"]

/-- The working directory the script was started from (install_yay's
cwd-relative "yay-bin" lives under it). -/
def cwdDir : Path := ["build"]

def yayBinDir : Path := cwdDir ++ ["yay-bin"]

/--
The tail of install_as_command (lines 1015-1048) after the directory
exists: run_command(["sudo","cp", argv0, dest]) is simulated under
dry-run; otherwise the spawned cp behaves like copy2, and a failure is
caught by run_command (None result), upon which the function returns.
The chmod has no filesystem-shape effect in the model.
-/
def installAsCommandCp (argv0 : Path) (s : St) : St :=
  if s.dryRun then s
  else
    match copy2 s.fs argv0 exoCmdPath with
    | none => s
    | some fs1 => { s with fs := fs1 }

/--
install_as_command (lines 999-1048): creates /usr/local/bin with a bare
os.makedirs when it does not exist - note this real write is not guarded
by dry_run - returning early if that raises OSError, then copies the
script there via sudo cp (which run_command does simulate in dry-run).
-/
def installAsCommand (argv0 : Path) (s : St) : St :=
  if pathExists s.fs usrLocalBin then installAsCommandCp argv0 s
  else
    match mkdirs s.fs usrLocalBin with
    | (fs1, false) => { s with fs := fs1 }
    | (fs1, true) => installAsCommandCp argv0 { s with fs := fs1 }

/-- The wallpaper directory of final_setup (lines 777-779). -/
def wallpaperDir (dry : Bool) (cfgDir : Path) : Path :=
  if dry then cfgDir ++ ["Pictures", "Wallpapers"]
  else homeDir ++ ["Pictures", "Wallpapers"]

def wallpaperDest (dry : Bool) (cfgDir : Path) : Path :=
  wallpaperDir dry cfgDir ++ ["default.png"]

def userSettingsPath (cfgDir : Path) : Path :=
  cfgDir ++ ["ignis", "user_settings.json"]

/--
The user_settings.json step of final_setup (lines 814-818): when the
file is absent, makedirs the ignis config directory and write a default
literal content (the two-character JSON object).
-/
def finalSetupUser (cfgDir : Path) (s : St) : Res :=
  if pathExists s.fs (userSettingsPath cfgDir) then Res.ok s
  else
    match mkdirs s.fs (cfgDir ++ ["ignis"]) with
    | (fs1, false) => Res.err { s with fs := fs1 }
    | (fs1, true) =>
      match writeFile fs1 (userSettingsPath cfgDir) "\x7b\x7d" with
      | none => Res.err { s with fs := fs1 }
      | some fs2 => Res.ok { s with fs := fs2 }

/--
The preview-colors.scss step of final_setup (lines 820-828), identical
to the tail of update_install: copy the default when absent.
-/
def finalSetupPreview (srcDir cfgDir : Path) (s : St) : Res :=
  if pathExists s.fs (previewDest cfgDir) then Res.ok s
  else
    match copyfile s.fs (srcDir ++ ["exodefaults", "preview-colors.scss"])
        (previewDest cfgDir) with
    | none => Res.err s
    | some fs1 => Res.ok { s with fs := fs1 }

/--
final_setup (lines 772-831): ensure the wallpaper directory, copy the
default wallpaper when absent, run matugen (an external process with no
modelled filesystem effect), create a default user_settings.json when
absent, copy the default preview-colors.scss when absent, and install
the script as a command when exoupdate is not on the PATH.
-/
def finalSetup (argv0 srcDir cfgDir : Path) (s : St) : Res :=
  let wpSrc := srcDir ++ ["exodefaults", "default_wallpaper.png"]
  match mkdirs s.fs (wallpaperDir s.dryRun cfgDir) with
  | (fs1, false) => Res.err { s with fs := fs1 }
  | (fs1, true) =>
    let s1 := { s with fs := fs1 }
    let step2 : Res :=
      if pathExists s1.fs (wallpaperDest s1.dryRun cfgDir) then Res.ok s1
      else
        match copyfile s1.fs wpSrc (wallpaperDest s1.dryRun cfgDir) with
        | none => Res.err s1
        | some fs2 => Res.ok { s1 with fs := fs2 }
    match step2 with
    | Res.err s2 => Res.err s2
    | Res.ok s2 =>
      match finalSetupUser cfgDir s2 with
      | Res.err s3 => Res.err s3
      | Res.ok s3 =>
        match finalSetupPreview srcDir cfgDir s3 with
        | Res.err s4 => Res.err s4
        | Res.ok s4 =>
          if pathExists s4.fs exoCmdPath then Res.ok s4
          else Res.ok (installAsCommand argv0 s4)

/--
The environment of external collaborators consulted by full_install:
the detected distro, the which-results for paru/yay/niri/hyprland, the
success of the external pacman, git clone, makepkg and package-install
subprocesses, the which("yay") result after a yay install, and the
script path sys.argv[0].
-/
structure Env : Type where
  distro : Option String
  paruPresent : Bool
  yayPresent : Bool
  pacmanOk : Bool
  cloneOk : Bool
  makepkgOk : Bool
  yayAfter : Bool
  niriPresent : Bool
  hyprPresent : Bool
  pkgOk : Bool
  argv0 : Path
deriving DecidableEq, Repr

/--
install_yay (lines 286-317): a leftover cwd-relative yay-bin directory
is removed with shutil.rmtree - a real filesystem effect that is not
guarded by dry_run.  Under dry-run the git clone is only simulated, so
the subsequent os.chdir("yay-bin") raises and the function returns
False.  Otherwise the clone creates the build directory, makepkg runs
(an external install), and the directory is removed again, so the net
modelled effect is the removal of any leftover yay-bin subtree.
-/
def installYay (env : Env) (s : St) : Bool × St :=
  if !s.dryRun && !env.pacmanOk then (false, s)
  else
    let s1 := if pathExists s.fs yayBinDir
              then { s with fs := eraseTree s.fs yayBinDir } else s
    if s1.dryRun then (false, s1)
    else if !env.cloneOk then (false, s1)
    else (env.makepkgOk, s1)

/--
check_aur_helper (lines 260-284): an available paru or yay short
circuits; otherwise install_yay is attempted and which("yay") consulted
again.
-/
def checkAurHelper (env : Env) (s : St) : Bool × St :=
  if env.paruPresent || env.yayPresent then (true, s)
  else
    let (ok, s1) := installYay env s
    if ok && env.yayAfter then (true, s1) else (false, s1)

/-- The outcome of check_desktop / install_desktop: an explicit sys.exit,
or a continuation with the chosen desktop (None when installation failed). -/
inductive DRes : Type where
  | exit : St → DRes
  | cont : Option String → St → DRes
deriving DecidableEq, Repr

/--
install_desktop (lines 684-721): one choice among niri/hyprland/both/q;
q exits the process; the package install is simulated under dry-run and
otherwise succeeds or fails with the external package manager.
-/
def installDesktop (env : Env) (s : St) : DRes :=
  let (c, s1) := getUserChoice ["1", "2", "3", "q"] s
  if c = "q" then DRes.exit s1
  else if s1.dryRun || env.pkgOk then
    DRes.cont (some (if c = "1" then "niri"
                     else if c = "2" then "hyprland" else "both")) s1
  else DRes.cont none s1

/--
check_desktop (lines 667-682): under dry-run no which-lookups are made,
so the installed list is empty and install_desktop is entered; otherwise
the list of found desktops decides directly.
-/
def checkDesktop (env : Env) (s : St) : DRes :=
  let installed : List String :=
    if s.dryRun then []
    else (if env.niriPresent then ["niri"] else [])
      ++ (if env.hyprPresent then ["hyprland"] else [])
  if installed.length = 0 then installDesktop env s
  else if installed.length = 1 then DRes.cont (some (installed.headD "")) s
  else DRes.cont (some "both") s

/-- The copytree step of the full_install folder loop (lines 875-883):
its failure is caught, reported, and the loop continues. -/
def fiCopytree (source destination : Path) (s : St) : St :=
  match copytree s.fs source destination with
  | none => s
  | some fs1 => { s with fs := fs1 }

/--
One folder of full_install's core loop (lines 856-883): an existing
destination triggers a Backup (shutil.move, uncaught on failure) /
Overwrite (shutil.rmtree) / Quit (sys.exit) choice, then the fresh
copytree.
-/
def fiFolder (srcDir cfgDir : Path) (f : String) (s : St) : Res :=
  let source := srcDir ++ [f]
  let destination := cfgDir ++ [f]
  if pathExists s.fs destination then
    let (c, s1) := getUserChoice ["b", "o", "q"] s
    if c = "b" then
      match moveTree s1.fs destination (addSuffix destination "-backup") with
      | none => Res.err s1
      | some fs2 => Res.ok (fiCopytree source destination { s1 with fs := fs2 })
    else if c = "o" then
      match rmtree s1.fs destination with
      | none => Res.err s1
      | some fs2 => Res.ok (fiCopytree source destination { s1 with fs := fs2 })
    else Res.err s1
  else Res.ok (fiCopytree source destination s)

def fiFolders (srcDir cfgDir : Path) : List String → St → Res
  | [], s => Res.ok s
  | f :: rest, s =>
    match fiFolder srcDir cfgDir f s with
    | Res.err s1 => Res.err s1
    | Res.ok s1 => fiFolders srcDir cfgDir rest s1

/-- The result of one desktop-config branch of install_desktop_configs:
raise, early return of the whole function (the Skip choice), or fall
through to the next branch. -/
inductive IRes : Type where
  | err : St → IRes
  | ret : St → IRes
  | ok : St → IRes
deriving DecidableEq, Repr

def idcCopy (source dest : Path) (s : St) : IRes :=
  match copy2 s.fs source dest with
  | none => IRes.err s
  | some fs1 => IRes.ok { s with fs := fs1 }

/--
One branch of install_desktop_configs (lines 723-770): makedirs the
config subdirectory, and when the destination file exists ask
Backup/Overwrite/Skip - Backup first copies the file to a .bak sibling,
Skip returns from the whole function - then copy the default config.
-/
def idcOne (source dest cfgSub : Path) (s : St) : IRes :=
  match mkdirs s.fs cfgSub with
  | (fs1, false) => IRes.err { s with fs := fs1 }
  | (fs1, true) =>
    let s1 := { s with fs := fs1 }
    if pathExists s1.fs dest then
      let (c, s2) := getUserChoice ["b", "o", "s"] s1
      if c = "b" then
        match copy2 s2.fs dest (addSuffix dest ".bak") with
        | none => IRes.err s2
        | some fs3 => idcCopy source dest { s2 with fs := fs3 }
      else if c = "o" then idcCopy source dest s2
      else IRes.ret s2
    else idcCopy source dest s1

def installDesktopConfigs (srcDir cfgDir : Path) (de : String) (s : St) : Res :=
  let step1 : IRes :=
    if de = "niri" ∨ de = "both" then
      idcOne (srcDir ++ ["exodefaults", "config.kdl"])
        (cfgDir ++ ["niri", "config.kdl"]) (cfgDir ++ ["niri"]) s
    else IRes.ok s
  match step1 with
  | IRes.err s1 => Res.err s1
  | IRes.ret s1 => Res.ok s1
  | IRes.ok s1 =>
    if de = "hyprland" ∨ de = "both" then
      match idcOne (srcDir ++ ["exodefaults", "hyprland.conf"])
          (cfgDir ++ ["hypr", "hyprland.conf"]) (cfgDir ++ ["hypr"]) s1 with
      | IRes.err s2 => Res.err s2
      | IRes.ret s2 => Res.ok s2
      | IRes.ok s2 => Res.ok s2
    else Res.ok s1

/-- The part of full_install after the AUR-helper gate (lines 846-887). -/
def fullInstallRest (env : Env) (srcDir cfgDir : Path) (s : St) : Res :=
  match checkDesktop env s with
  | DRes.exit s1 => Res.err s1
  | DRes.cont none s1 => Res.ok s1
  | DRes.cont (some de) s1 =>
    match fiFolders srcDir cfgDir coreFolders s1 with
    | Res.err s2 => Res.err s2
    | Res.ok s2 =>
      match installDesktopConfigs srcDir cfgDir de s2 with
      | Res.err s3 => Res.err s3
      | Res.ok s3 => finalSetup env.argv0 srcDir cfgDir s3

/--
full_install (lines 833-887): detect_distro always returns True (lines
240-241) and only reads /etc; get_package_manager only sets a field;
install_dependencies returns immediately via its hardcoded "n" choice
(lines 322-327).  On an Arch distro a missing AUR helper aborts the
procedure with a plain return after the install_yay attempt.
-/
def fullInstall (env : Env) (srcDir cfgDir : Path) (s : St) : Res :=
  if env.distro = some "arch" then
    match checkAurHelper env s with
    | (false, s1) => Res.ok s1
    | (true, s1) => fullInstallRest env srcDir cfgDir s1
  else fullInstallRest env srcDir cfgDir s

/-- The artifacts uninstall_exo enumerates (lines 1103-1110). -/
def uninstallPaths (cfgDir : Path) : List Path :=
  [cfgDir ++ ["ignis"], cfgDir ++ ["matugen"],
   cfgDir ++ ["niri", "config.kdl"], cfgDir ++ ["hypr", "hyprland.conf"]]

/-- One removal of uninstall_exo (lines 1135-1154): recursive for a
directory, direct for a file; failures are caught per item. -/
def uninstallRemove (fs : FS) (p : Path) : FS :=
  if pathExists fs p then
    if isDir fs p then eraseTree fs p else fsErase fs p
  else fs

/-- The wallpaper path consulted by uninstall_exo (lines 1173-1177). -/
def uninstallWallpaper (dry : Bool) (cfgDir : Path) : Path :=
  if dry then cfgDir ++ ["Pictures", "Wallpapers", "default.png"]
  else homeDir ++ ["Pictures", "Wallpapers", "default.png"]

/--
uninstall_exo (lines 1089-1211): an initial confirmation, the listing of
existing items, a no-items early return (outside dry-run), the final
confirmation, then the removals - each skipped under dry-run, as is the
sudo rm of the installed command - and finally the optional wallpaper
removal.  Nothing here raises, so the procedure is total on states.
-/
def uninstallExo (cfgDir : Path) (s : St) : St :=
  let (c1, s1) := getUserChoice ["y", "n"] s
  if c1 = "n" then s1
  else
    let itemsFound := (uninstallPaths cfgDir).any (pathExists s1.fs)
      || pathExists s1.fs exoCmdPath
    if !itemsFound && !s1.dryRun then s1
    else
      let (c2, s2) := getUserChoice ["y", "n"] s1
      if c2 = "n" then s2
      else
        let s3 := if s2.dryRun then s2
          else { s2 with fs := (uninstallPaths cfgDir).foldl uninstallRemove s2.fs }
        let s4 := if pathExists s3.fs exoCmdPath && !s3.dryRun
          then { s3 with fs := fsErase s3.fs exoCmdPath } else s3
        let wp := uninstallWallpaper s4.dryRun cfgDir
        if pathExists s4.fs wp then
          let (c3, s5) := getUserChoice ["y", "n"] s4
          if c3 = "y" && !s5.dryRun then { s5 with fs := fsErase s5.fs wp }
          else s5
        else s4

/-- The three-way branch structure of compare_and_copy (lines 963-983):
a missing destination hash is a new file, a hash mismatch a changed one. -/
inductive CCKind : Type where
  | new | changed | unchanged
deriving DecidableEq, Repr

def ccKind (sourceHash destHash : Option String) : CCKind :=
  if destHash = none then CCKind.new
  else if sourceHash ≠ destHash then CCKind.changed
  else CCKind.unchanged

/-- The four classes a relative path can fall into during update_install. -/
inductive UKind : Type where
  | new | changed | unchanged | orphaned
deriving DecidableEq, Repr

/-- A relative path the walks of update_install can produce: nonempty and
with no __pycache__ ancestor directory below the walk root. -/
def visibleRel (rel : Path) : Bool :=
  rel ≠ ([] : Path) && !(rel.dropLast.contains "__pycache__")

/-- Whether a walk of root would yield rel as a file. -/
def isWalkedFile (fs : FS) (root : Path) (rel : Path) : Bool :=
  visibleRel rel &&
    match fsGet fs (root ++ rel) with
    | some (Entry.file _) => true
    | _ => false

/--
The classification update_install's two walks induce on a relative path,
read off the trees: a walked source file is classified by
compare_and_copy's hash comparison; otherwise a walked destination file
is orphaned exactly when the source path does not exist at all (line
944's os.path.exists check, which an existing source directory also
satisfies); protected basenames are skipped by both walks.
-/
def updateKind (h : String → String) (fs : FS) (sp dp : Path) (rel : Path) :
    Option UKind :=
  if protectedFiles.contains (baseName rel) then none
  else if isWalkedFile fs sp rel then
    some (match ccKind (getFileHash h fs (sp ++ rel))
                (getFileHash h fs (dp ++ rel)) with
          | CCKind.new => UKind.new
          | CCKind.changed => UKind.changed
          | CCKind.unchanged => UKind.unchanged)
  else if isWalkedFile fs dp rel then
    if pathExists fs (sp ++ rel) then none else some UKind.orphaned
  else none

/-! ## Path and association-list toolkit -/

theorem isPre_iff (p q : Path) : isPre p q = true ↔ ∃ t, q = p ++ t := by
  induction p generalizing q with
  | nil => simp [isPre]
  | cons a as ih =>
    cases q with
    | nil =>
      simp [isPre]
    | cons b bs =>
      simp only [isPre, Bool.and_eq_true, beq_iff_eq, ih, List.cons_append,
        List.cons.injEq]
      constructor
      · rintro ⟨hab, t, ht⟩
        exact ⟨t, hab.symm, ht⟩
      · rintro ⟨t, hab, ht⟩
        exact ⟨hab.symm, t, ht⟩

theorem isPre_refl (p : Path) : isPre p p = true :=
  (isPre_iff p p).2 ⟨[], by simp⟩

theorem isPre_append (p t : Path) : isPre p (p ++ t) = true :=
  (isPre_iff p (p ++ t)).2 ⟨t, rfl⟩

theorem isPre_trans {p q r : Path} (h1 : isPre p q = true)
    (h2 : isPre q r = true) : isPre p r = true := by
  obtain ⟨t1, ht1⟩ := (isPre_iff p q).1 h1
  obtain ⟨t2, ht2⟩ := (isPre_iff q r).1 h2
  exact (isPre_iff p r).2 ⟨t1 ++ t2, by simp [ht2, ht1]⟩

theorem isPre_total {p q r : Path} (h1 : isPre p r = true)
    (h2 : isPre q r = true) : isPre p q = true ∨ isPre q p = true := by
  induction p generalizing q r with
  | nil => exact Or.inl rfl
  | cons a as ih =>
    cases r with
    | nil => simp [isPre] at h1
    | cons b rs =>
      cases q with
      | nil => exact Or.inr rfl
      | cons c cs =>
        simp only [isPre, Bool.and_eq_true, beq_iff_eq] at h1 h2
        rcases ih h1.2 h2.2 with h | h
        · exact Or.inl (by simp [isPre, h1.1, h2.1, h])
        · exact Or.inr (by simp [isPre, h1.1, h2.1, h])

theorem isPre_cancel (d a b : Path) : isPre (d ++ a) (d ++ b) = isPre a b := by
  induction d with
  | nil => rfl
  | cons x xs ih => simp [isPre, ih]

theorem eq_of_isPre_of_isPre {p q : Path} (h1 : isPre p q = true)
    (h2 : isPre q p = true) : p = q := by
  obtain ⟨t1, ht1⟩ := (isPre_iff p q).1 h1
  obtain ⟨t2, ht2⟩ := (isPre_iff q p).1 h2
  have hlen : p.length = q.length := by
    have l1 : q.length = p.length + t1.length := by simp [ht1]
    have l2 : p.length = q.length + t2.length := by simp [ht2]
    omega
  have ht : t1 = [] := by
    have hl := congrArg List.length ht1
    simp only [List.length_append] at hl
    have : t1.length = 0 := by omega
    exact List.eq_nil_of_length_eq_zero this
  simp [ht1, ht]

theorem isPre_dirName (p : Path) : isPre (dirName p) p = true := by
  cases hp : p.getLast? with
  | none =>
    have : p = [] := by
      cases p with
      | nil => rfl
      | cons a as => simp [List.getLast?_eq_getLast] at hp
    simp [this, dirName, isPre]
  | some a =>
    have hne : p ≠ [] := by
      intro h
      subst h
      simp at hp
    exact (isPre_iff _ _).2 ⟨[p.getLast hne],
      (List.dropLast_append_getLast hne).symm⟩

theorem mem_of_isPre {p q : Path} (h : isPre p q = true) {a : String}
    (ha : a ∈ p) : a ∈ q := by
  obtain ⟨t, ht⟩ := (isPre_iff p q).1 h
  subst ht
  exact List.mem_append_left _ ha

theorem isPre_nil_left (q : Path) : isPre [] q = true := rfl

theorem not_isPre_of_comp {d : Path} {a b : String} (hab : a ≠ b) (x y : Path) :
    isPre (d ++ a :: x) (d ++ b :: y) = false := by
  rw [isPre_cancel]
  simp [isPre, hab]

theorem baseName_append {x rel : Path} (h : rel ≠ []) :
    baseName (x ++ rel) = baseName rel := by
  unfold baseName
  rw [List.getLastD_eq_getLast? "" (x ++ rel), List.getLastD_eq_getLast? "" rel,
    List.getLast?_append_of_ne_nil x h]

theorem isPre_drop_eq {r q : Path} (h : isPre r q = true) :
    r ++ q.drop r.length = q := by
  obtain ⟨t, ht⟩ := (isPre_iff r q).1 h
  subst ht
  simp

/-! Lookup, erase, set -/

theorem fsGet_fsErase (fs : FS) (p q : Path) :
    fsGet (fsErase fs p) q = if q = p then none else fsGet fs q := by
  induction fs with
  | nil => simp [fsErase, fsGet]
  | cons pr rest ih =>
    by_cases hpr : pr.1 = p
    · have : fsErase (pr :: rest) p = fsErase rest p := by
        simp [fsErase, List.filter, hpr]
      rw [this, ih]
      by_cases hq : q = p
      · simp [hq]
      · have hne : pr.1 ≠ q := fun h => hq (h.symm.trans hpr)
        simp [hq, fsGet, hne]
    · have : fsErase (pr :: rest) p = pr :: fsErase rest p := by
        simp [fsErase, List.filter, hpr]
      rw [this]
      by_cases hq : pr.1 = q
      · have hqp : ¬ q = p := fun hqp => hpr (hq.trans hqp)
        simp [fsGet, hq, hqp]
      · simp [fsGet, hq, ih]

theorem fsGet_fsSet (fs : FS) (p : Path) (e : Entry) (q : Path) :
    fsGet (fsSet fs p e) q = if q = p then some e else fsGet fs q := by
  unfold fsSet
  by_cases hq : q = p
  · simp [fsGet, hq]
  · have : ¬ p = q := fun h => hq h.symm
    simp [fsGet, hq, this, fsGet_fsErase]

/-! Key uniqueness -/

def keysNodup (fs : FS) : Prop :=
  (fs.map Prod.fst).Nodup

theorem fsErase_sublist (fs : FS) (p : Path) : List.Sublist (fsErase fs p) fs :=
  List.filter_sublist fs

theorem keysNodup_fsErase {fs : FS} (h : keysNodup fs) (p : Path) :
    keysNodup (fsErase fs p) :=
  List.Nodup.sublist (List.Sublist.map _ (fsErase_sublist fs p)) h

theorem not_mem_keys_fsErase (fs : FS) (p : Path) :
    p ∉ (fsErase fs p).map Prod.fst := by
  intro h
  obtain ⟨pr, hpr, hfst⟩ := List.mem_map.1 h
  have := List.of_mem_filter hpr
  simp [hfst] at this

theorem keysNodup_fsSet {fs : FS} (h : keysNodup fs) (p : Path) (e : Entry) :
    keysNodup (fsSet fs p e) := by
  unfold keysNodup fsSet
  rw [List.map_cons]
  exact List.Nodup.cons (not_mem_keys_fsErase fs p) (keysNodup_fsErase h p)

theorem fsGet_eq_of_mem {fs : FS} (h : keysNodup fs) {p : Path} {e : Entry}
    (hm : (p, e) ∈ fs) : fsGet fs p = some e := by
  induction fs with
  | nil => cases hm
  | cons pr rest ih =>
    rcases List.mem_cons.1 hm with heq | hmem
    · subst heq
      simp [fsGet]
    · unfold keysNodup at h
      rw [List.map_cons] at h
      have hne : pr.1 ≠ p := by
        intro hp
        exact (List.nodup_cons.1 h).1 (hp ▸ List.mem_map.2 ⟨(p, e), hmem, rfl⟩)
      simp only [fsGet, if_neg hne]
      exact ih (List.nodup_cons.1 h).2 hmem

theorem mem_of_fsGet {fs : FS} {p : Path} {e : Entry}
    (h : fsGet fs p = some e) : (p, e) ∈ fs := by
  induction fs with
  | nil => simp [fsGet] at h
  | cons pr rest ih =>
    by_cases hpr : pr.1 = p
    · simp only [fsGet, if_pos hpr] at h
      cases h
      have hpr2 : (p, pr.2) = pr := by
        cases pr with
        | mk a b =>
          simp only at hpr
          simp [hpr]
      exact List.mem_cons.2 (Or.inl hpr2)
    · simp only [fsGet, if_neg hpr] at h
      exact List.mem_cons_of_mem _ (ih h)

theorem pathExists_of_mem {fs : FS} {p : Path} {e : Entry}
    (hm : (p, e) ∈ fs) : pathExists fs p = true := by
  induction fs with
  | nil => cases hm
  | cons pr rest ih =>
    rcases List.mem_cons.1 hm with heq | hmem
    · subst heq
      simp [pathExists, fsGet]
    · by_cases hpr : pr.1 = p
      · simp [pathExists, fsGet, hpr]
      · simpa [pathExists, fsGet, hpr] using ih hmem

/-! mkdirs: preserves every existing entry, creates only missing
directories below its argument, and ends with the argument a directory. -/

theorem mkdirsGo_preserve {fs : FS} {q : Path} {e : Entry}
    (h : fsGet fs q = some e) (pre : Path) (l : List String) :
    fsGet (mkdirsGo fs pre l).1 q = some e := by
  induction l generalizing fs pre with
  | nil => exact h
  | cons c rest ih =>
    unfold mkdirsGo
    cases hg : fsGet fs (pre ++ [c]) with
    | none =>
      have hset : fsGet (fsSet fs (pre ++ [c]) Entry.dir) q = some e := by
        rw [fsGet_fsSet]
        by_cases hq : q = pre ++ [c]
        · rw [hq] at h
          rw [h] at hg
          cases hg
        · simp [hq, h]
      exact ih hset _
    | some e2 =>
      cases e2 with
      | dir => exact ih h _
      | file c2 => exact h

theorem mkdirsGo_changed {fs : FS} {pre : Path} {l : List String} {q : Path}
    (h : fsGet (mkdirsGo fs pre l).1 q ≠ fsGet fs q) :
    fsGet fs q = none ∧ fsGet (mkdirsGo fs pre l).1 q = some Entry.dir ∧
      q ≠ ([] : Path) ∧ isPre q (pre ++ l) = true := by
  induction l generalizing fs pre with
  | nil => exact absurd rfl h
  | cons c rest ih =>
    have harr : pre ++ [c] ++ rest = pre ++ c :: rest := by simp
    cases hg : fsGet fs (pre ++ [c]) with
    | none =>
      have heq : mkdirsGo fs pre (c :: rest)
          = mkdirsGo (fsSet fs (pre ++ [c]) Entry.dir) (pre ++ [c]) rest := by
        rw [mkdirsGo, hg]
      rw [heq] at h ⊢
      by_cases hq : q = pre ++ [c]
      · subst hq
        refine ⟨hg, ?_, ?_, ?_⟩
        · exact mkdirsGo_preserve (by rw [fsGet_fsSet]; simp) _ _
        · simp
        · exact harr ▸ isPre_append (pre ++ [c]) rest
      · have hsq : fsGet (fsSet fs (pre ++ [c]) Entry.dir) q = fsGet fs q := by
          rw [fsGet_fsSet]
          simp [hq]
        rw [← hsq] at h
        obtain ⟨h1, h2, h3, h4⟩ := ih h
        rw [hsq] at h1
        exact ⟨h1, h2, h3, harr ▸ h4⟩
    | some e2 =>
      cases e2 with
      | dir =>
        have heq : mkdirsGo fs pre (c :: rest)
            = mkdirsGo fs (pre ++ [c]) rest := by
          rw [mkdirsGo, hg]
        rw [heq] at h ⊢
        obtain ⟨h1, h2, h3, h4⟩ := ih h
        exact ⟨h1, h2, h3, harr ▸ h4⟩
      | file c2 =>
        have heq : mkdirsGo fs pre (c :: rest) = (fs, false) := by
          rw [mkdirsGo, hg]
        rw [heq] at h
        exact absurd rfl h

theorem mkdirsGo_isDir {fs : FS} {pre : Path} {l : List String}
    (hok : (mkdirsGo fs pre l).2 = true) (hne : l ≠ []) :
    isDir (mkdirsGo fs pre l).1 (pre ++ l) = true := by
  induction l generalizing fs pre with
  | nil => exact absurd rfl hne
  | cons c rest ih =>
    cases hg : fsGet fs (pre ++ [c]) with
    | none =>
      have heq : mkdirsGo fs pre (c :: rest)
          = mkdirsGo (fsSet fs (pre ++ [c]) Entry.dir) (pre ++ [c]) rest := by
        rw [mkdirsGo, hg]
      rw [heq] at hok ⊢
      cases rest with
      | nil =>
        simp only [mkdirsGo]
        unfold isDir
        rw [fsGet_fsSet]
        simp
      | cons c2 r2 =>
        have := @ih (fsSet fs (pre ++ [c]) Entry.dir) (pre ++ [c])
          hok (by simp)
        have harr : pre ++ [c] ++ (c2 :: r2) = pre ++ c :: c2 :: r2 := by simp
        rw [harr] at this
        exact this
    | some e2 =>
      cases e2 with
      | dir =>
        have heq : mkdirsGo fs pre (c :: rest)
            = mkdirsGo fs (pre ++ [c]) rest := by
          rw [mkdirsGo, hg]
        rw [heq] at hok ⊢
        cases rest with
        | nil =>
          simp only [mkdirsGo]
          unfold isDir
          simpa using hg
        | cons c2 r2 =>
          have := @ih fs (pre ++ [c]) hok (by simp)
          have harr : pre ++ [c] ++ (c2 :: r2) = pre ++ c :: c2 :: r2 := by simp
          rw [harr] at this
          exact this
      | file c2 =>
        have heq : mkdirsGo fs pre (c :: rest) = (fs, false) := by
          rw [mkdirsGo, hg]
        rw [heq] at hok
        simp at hok

theorem mkdirsGo_nodup {fs : FS} (h : keysNodup fs) (pre : Path)
    (l : List String) : keysNodup (mkdirsGo fs pre l).1 := by
  induction l generalizing fs pre with
  | nil => exact h
  | cons c rest ih =>
    unfold mkdirsGo
    cases hg : fsGet fs (pre ++ [c]) with
    | none => exact ih (keysNodup_fsSet h _ _) _
    | some e2 =>
      cases e2 with
      | dir => exact ih h _
      | file c2 => exact h

/-! writeFile / copy2 / copyfile: characterizations -/

theorem writeFile_some {fs : FS} {p : Path} {c : String} {fs' : FS}
    (h : writeFile fs p c = some fs') :
    fs' = fsSet fs p (Entry.file c) ∧ isDir fs p = false := by
  unfold writeFile at h
  by_cases hd : isDir fs p
  · simp [hd] at h
  · simp only [hd, if_false, Bool.false_eq_true] at h
    split at h
    · cases h
      exact ⟨rfl, by simpa using hd⟩
    · cases h

theorem copy2_some {fs : FS} {src dst : Path} {fs' : FS}
    (h : copy2 fs src dst = some fs') :
    ∃ c t, fsGet fs src = some (Entry.file c) ∧
      ((t = dst ∧ isDir fs dst = false) ∨
        (t = dst ++ [baseName src] ∧ isDir fs dst = true)) ∧
      fs' = fsSet fs t (Entry.file c) ∧ isDir fs t = false := by
  unfold copy2 at h
  cases hg : fsGet fs src with
  | none => rw [hg] at h; cases h
  | some e =>
    rw [hg] at h
    cases e with
    | dir => cases h
    | file c =>
      simp only at h
      by_cases hd : isDir fs dst
      · rw [if_pos hd] at h
        obtain ⟨hfs, hnd⟩ := writeFile_some h
        exact ⟨c, dst ++ [baseName src], rfl, Or.inr ⟨rfl, hd⟩, hfs, hnd⟩
      · rw [if_neg hd] at h
        obtain ⟨hfs, hnd⟩ := writeFile_some h
        exact ⟨c, dst, rfl, Or.inl ⟨rfl, by simpa using hd⟩, hfs, hnd⟩

theorem copyfile_some {fs : FS} {src dst : Path} {fs' : FS}
    (h : copyfile fs src dst = some fs') :
    ∃ c, fsGet fs src = some (Entry.file c) ∧
      fs' = fsSet fs dst (Entry.file c) ∧ isDir fs dst = false := by
  unfold copyfile at h
  cases hg : fsGet fs src with
  | none => rw [hg] at h; cases h
  | some e =>
    rw [hg] at h
    cases e with
    | dir => cases h
    | file c =>
      simp only at h
      by_cases hd : isDir fs dst
      · simp [hd] at h
      · rw [if_neg hd] at h
        obtain ⟨hfs, hnd⟩ := writeFile_some h
        exact ⟨c, rfl, hfs, hnd⟩

/-! walkFiles: stability under writes and erasures away from the root -/

theorem filterMap_filter_of_none {α β : Type} (f : α → Option β)
    (g : α → Bool) (l : List α)
    (h : ∀ x ∈ l, g x = false → f x = none) :
    (l.filter g).filterMap f = l.filterMap f := by
  induction l with
  | nil => rfl
  | cons a as ih =>
    have ih2 := ih (fun x hx => h x (List.mem_cons_of_mem a hx))
    cases hg : g a with
    | true =>
      rw [List.filter_cons_of_pos hg, List.filterMap_cons, List.filterMap_cons,
        ih2]
    | false =>
      rw [List.filter_cons_of_neg (by simp [hg]), List.filterMap_cons,
        h a (List.mem_cons_self a as) hg, ih2]

/-- The per-entry function walkFiles filters with. -/
def walkFn (root : Path) (pr : Path × Entry) : Option Path :=
  match pr.2 with
  | Entry.file _ =>
    if isPre root pr.1 && pr.1 ≠ root
        && !((pr.1.drop root.length).dropLast.contains "__pycache__") then
      some (pr.1.drop root.length)
    else none
  | Entry.dir => none

theorem walkFiles_eq_filterMap (fs : FS) (root : Path) :
    walkFiles fs root = fs.filterMap (walkFn root) := rfl

theorem walkFn_none_of_not_pre {root : Path} {pr : Path × Entry}
    (h : isPre root pr.1 = false) : walkFn root pr = none := by
  unfold walkFn
  cases pr.2 <;> simp [h]

theorem walkFiles_fsSet {fs : FS} {p : Path} {e : Entry} {root : Path}
    (h : isPre root p = false) :
    walkFiles (fsSet fs p e) root = walkFiles fs root := by
  rw [walkFiles_eq_filterMap, walkFiles_eq_filterMap]
  unfold fsSet fsErase
  rw [List.filterMap_cons, walkFn_none_of_not_pre h]
  exact filterMap_filter_of_none _ _ fs (fun x _ hx => by
    have : x.1 = p := by
      by_cases hxp : x.1 = p
      · exact hxp
      · simp [hxp] at hx
    exact walkFn_none_of_not_pre (this ▸ h))

theorem walkFiles_fsErase {fs : FS} {p : Path} {root : Path}
    (h : isPre root p = false) :
    walkFiles (fsErase fs p) root = walkFiles fs root := by
  rw [walkFiles_eq_filterMap, walkFiles_eq_filterMap]
  unfold fsErase
  exact filterMap_filter_of_none _ _ fs (fun x _ hx => by
    have : x.1 = p := by
      by_cases hxp : x.1 = p
      · exact hxp
      · simp [hxp] at hx
    exact walkFn_none_of_not_pre (this ▸ h))

theorem mem_filterMap_filter {α β : Type} {f : α → Option β} {g : α → Bool}
    {l : List α} {b : β} (h : b ∈ (l.filter g).filterMap f) :
    b ∈ l.filterMap f :=
  List.Sublist.mem h (List.Sublist.filterMap f (List.filter_sublist l))

theorem mem_walkFiles_fsSet {fs : FS} {p : Path} {e : Entry} {root : Path}
    {rel : Path} (h : rel ∈ walkFiles (fsSet fs p e) root) :
    rel = p.drop root.length ∨ rel ∈ walkFiles fs root := by
  rw [walkFiles_eq_filterMap] at h
  unfold fsSet fsErase at h
  rw [List.filterMap_cons] at h
  cases hw : walkFn root (p, e) with
  | none =>
    rw [hw] at h
    exact Or.inr (mem_filterMap_filter h)
  | some r =>
    rw [hw] at h
    rcases List.mem_cons.1 h with hr | hm
    · subst hr
      left
      unfold walkFn at hw
      cases e with
      | dir => cases hw
      | file c =>
        simp only at hw
        split at hw
        · cases hw; rfl
        · cases hw
    · exact Or.inr (mem_filterMap_filter hm)

theorem mem_walkFiles_fsErase {fs : FS} {p : Path} {root : Path}
    {rel : Path} (h : rel ∈ walkFiles (fsErase fs p) root) :
    rel ∈ walkFiles fs root := by
  rw [walkFiles_eq_filterMap] at h
  exact mem_filterMap_filter h

theorem walkFiles_mem_entry {fs : FS} {root rel : Path}
    (h : rel ∈ walkFiles fs root) :
    ∃ c, (root ++ rel, Entry.file c) ∈ fs ∧ rel ≠ ([] : Path) ∧
      (rel.dropLast.contains "__pycache__") = false := by
  rw [walkFiles_eq_filterMap] at h
  obtain ⟨pr, hmem, hf⟩ := List.mem_filterMap.1 h
  unfold walkFn at hf
  cases he : pr.2 with
  | dir => rw [he] at hf; cases hf
  | file c =>
    rw [he] at hf
    simp only at hf
    split at hf
    · rename_i hcond
      cases hf
      simp only [Bool.and_eq_true, Bool.not_eq_eq_eq_not, Bool.not_true,
        decide_eq_true_eq] at hcond
      obtain ⟨⟨hpre, hne⟩, hpy⟩ := hcond
      have hkey : root ++ pr.1.drop root.length = pr.1 := isPre_drop_eq hpre
      refine ⟨c, ?_, ?_, hpy⟩
      · rw [hkey]
        have : pr = (pr.1, Entry.file c) := by
          cases pr with
          | mk a b => simp only at he; rw [he]
        rw [← this]
        exact hmem
      · intro hnil
        rw [hnil, List.append_nil] at hkey
        exact (by simpa using hne : ¬ pr.1 = root) hkey.symm
    · cases hf

theorem isPre_length {p q : Path} (h : isPre p q = true) :
    p.length ≤ q.length := by
  obtain ⟨t, ht⟩ := (isPre_iff p q).1 h
  subst ht
  simp

theorem isPre_dirName_false {p : Path} (h : p ≠ ([] : Path)) :
    isPre p (dirName p) = false := by
  cases hp : isPre p (dirName p) with
  | false => rfl
  | true =>
    have := isPre_length hp
    unfold dirName at this
    rw [List.length_dropLast] at this
    have : p.length = 0 := by omega
    exact absurd (List.eq_nil_of_length_eq_zero this) h

theorem mkdirsGo_walk {fs : FS} {pre : Path} {l : List String} {r : Path}
    (h : isPre r (pre ++ l) = false) :
    walkFiles (mkdirsGo fs pre l).1 r = walkFiles fs r := by
  induction l generalizing fs pre with
  | nil => rfl
  | cons c rest ih =>
    have harr : pre ++ [c] ++ rest = pre ++ c :: rest := by simp
    have hc : isPre r (pre ++ [c]) = false := by
      cases hx : isPre r (pre ++ [c]) with
      | false => rfl
      | true =>
        have : isPre r (pre ++ c :: rest) = true :=
          isPre_trans hx (harr ▸ isPre_append (pre ++ [c]) rest)
        rw [this] at h
        cases h
    cases hg : fsGet fs (pre ++ [c]) with
    | none =>
      have heq : mkdirsGo fs pre (c :: rest)
          = mkdirsGo (fsSet fs (pre ++ [c]) Entry.dir) (pre ++ [c]) rest := by
        rw [mkdirsGo, hg]
      rw [heq, ih (harr ▸ h), walkFiles_fsSet hc]
    | some e2 =>
      cases e2 with
      | dir =>
        have heq : mkdirsGo fs pre (c :: rest)
            = mkdirsGo fs (pre ++ [c]) rest := by
          rw [mkdirsGo, hg]
        rw [heq, ih (harr ▸ h)]
      | file c2 =>
        have heq : mkdirsGo fs pre (c :: rest) = (fs, false) := by
          rw [mkdirsGo, hg]
        rw [heq]

theorem mkdirs_unchanged_at {fs : FS} {dst : Path} (h : dst ≠ ([] : Path)) :
    fsGet (mkdirs fs (dirName dst)).1 dst = fsGet fs dst := by
  by_cases hc : fsGet (mkdirs fs (dirName dst)).1 dst = fsGet fs dst
  · exact hc
  · obtain ⟨_, _, _, h4⟩ := mkdirsGo_changed hc
    rw [List.nil_append] at h4
    rw [isPre_dirName_false h] at h4
    cases h4

/-! compare_and_copy: frame, preservation and postcondition lemmas -/

theorem CC_flags (h : String → String) (src dst : Path) (s : St) :
    ((compareAndCopy h src dst s).st).autoOv = s.autoOv ∧
    ((compareAndCopy h src dst s).st).autoDel = s.autoDel ∧
    ((compareAndCopy h src dst s).st).dryRun = s.dryRun := by
  unfold compareAndCopy getUserChoice
  dsimp only
  repeat' split
  all_goals exact ⟨rfl, rfl, rfl⟩

theorem CC_answers_auto (h : String → String) (src dst : Path) {s : St}
    (ha : s.autoOv = true) :
    ((compareAndCopy h src dst s).st).answers = s.answers := by
  unfold compareAndCopy getUserChoice
  dsimp only
  repeat' split
  all_goals simp_all [Res.st]

theorem CC_eq_new {h : String → String} {src dst : Path} {s : St}
    (hdh : getFileHash h s.fs dst = none) :
    compareAndCopy h src dst s =
      match mkdirs s.fs (dirName dst) with
      | (fs1, false) => Res.err { s with fs := fs1 }
      | (fs1, true) =>
        match copy2 fs1 src dst with
        | none => Res.err { s with fs := fs1 }
        | some fs2 =>
          Res.ok { s with fs := fs2, log := s.log ++ [Action.copy dst] } := by
  unfold compareAndCopy
  dsimp only
  rw [if_pos hdh]

theorem CC_eq_changed_auto {h : String → String} {src dst : Path} {s : St}
    (hdh : ¬ getFileHash h s.fs dst = none)
    (hsh : getFileHash h s.fs src ≠ getFileHash h s.fs dst)
    (ha : s.autoOv = true) :
    compareAndCopy h src dst s =
      match copy2 s.fs src dst with
      | none => Res.err s
      | some fs2 =>
        Res.ok { s with fs := fs2, log := s.log ++ [Action.copy dst] } := by
  unfold compareAndCopy
  dsimp only
  rw [if_neg hdh, if_pos hsh, ha]
  rfl

theorem CC_eq_changed_prompt {h : String → String} {src dst : Path} {s : St}
    (hdh : ¬ getFileHash h s.fs dst = none)
    (hsh : getFileHash h s.fs src ≠ getFileHash h s.fs dst)
    (ha : s.autoOv = false) :
    compareAndCopy h src dst s =
      (match getUserChoice ["y", "n"] s with
       | (c, s1) =>
         if c = "y" then
           match copy2 s1.fs src dst with
           | none => Res.err s1
           | some fs2 =>
             Res.ok { s1 with fs := fs2, log := s1.log ++ [Action.copy dst] }
         else Res.ok s1) := by
  unfold compareAndCopy
  dsimp only
  rw [if_neg hdh, if_pos hsh, ha]
  rfl

theorem CC_eq_unchanged {h : String → String} {src dst : Path} {s : St}
    (hdh : ¬ getFileHash h s.fs dst = none)
    (hsh : getFileHash h s.fs src = getFileHash h s.fs dst) :
    compareAndCopy h src dst s = Res.ok s := by
  unfold compareAndCopy
  dsimp only
  rw [if_neg hdh, if_neg (by simpa using hsh)]

theorem CC_fs_cases (h : String → String) (src dst : Path) (s : St) :
    ((compareAndCopy h src dst s).st).fs = s.fs ∨
    ((compareAndCopy h src dst s).st).fs = (mkdirs s.fs (dirName dst)).1 ∨
    (∃ fs1 c t, fs1 = (mkdirs s.fs (dirName dst)).1 ∧
      fsGet fs1 src = some (Entry.file c) ∧
      ((t = dst ∧ isDir fs1 dst = false) ∨
        (t = dst ++ [baseName src] ∧ isDir fs1 dst = true)) ∧
      isDir fs1 t = false ∧
      ((compareAndCopy h src dst s).st).fs = fsSet fs1 t (Entry.file c)) ∨
    (∃ c t, fsGet s.fs src = some (Entry.file c) ∧
      ((t = dst ∧ isDir s.fs dst = false) ∨
        (t = dst ++ [baseName src] ∧ isDir s.fs dst = true)) ∧
      isDir s.fs t = false ∧
      ((compareAndCopy h src dst s).st).fs = fsSet s.fs t (Entry.file c)) := by
  by_cases hdh : getFileHash h s.fs dst = none
  · rw [CC_eq_new hdh]
    cases hmk : mkdirs s.fs (dirName dst) with
    | mk fs1 ok =>
      cases ok with
      | false =>
        right; left
        simp [Res.st, hmk]
      | true =>
        cases hcp : copy2 fs1 src dst with
        | none =>
          right; left
          simp [Res.st, hmk, hcp]
        | some fs2 =>
          obtain ⟨c, t, h1, h2, h3, h4⟩ := copy2_some hcp
          right; right; left
          refine ⟨fs1, c, t, by simp [hmk], h1, h2, h4, ?_⟩
          simp [Res.st, hcp, h3]
  · by_cases hsh : getFileHash h s.fs src = getFileHash h s.fs dst
    · rw [CC_eq_unchanged hdh hsh]
      left; rfl
    · cases ha : s.autoOv with
      | true =>
        rw [CC_eq_changed_auto hdh hsh ha]
        cases hcp : copy2 s.fs src dst with
        | none => left; simp [Res.st, hcp]
        | some fs2 =>
          obtain ⟨c, t, h1, h2, h3, h4⟩ := copy2_some hcp
          right; right; right
          refine ⟨c, t, h1, h2, h4, ?_⟩
          simp [Res.st, hcp, h3]
      | false =>
        rw [CC_eq_changed_prompt hdh hsh ha]
        have hfs1 : (getUserChoice ["y", "n"] s).2.fs = s.fs := rfl
        cases hch : getUserChoice ["y", "n"] s with
        | mk c1 s1 =>
          dsimp only
          have hfs2 : s1.fs = s.fs := by rw [← hfs1, hch]
          by_cases hy : c1 = "y"
          · rw [if_pos hy, hfs2]
            cases hcp : copy2 s.fs src dst with
            | none => left; simp [Res.st, hcp, hfs2]
            | some fs2 =>
              obtain ⟨c, t, h1, h2, h3, h4⟩ := copy2_some hcp
              right; right; right
              refine ⟨c, t, h1, h2, h4, ?_⟩
              simp [Res.st, hcp, h3]
          · rw [if_neg hy]
            left
            simp [Res.st, hfs2]

theorem isPre_eq_of_length {p q : Path} (h : isPre p q = true)
    (hl : p.length = q.length) : p = q := by
  obtain ⟨t, ht⟩ := (isPre_iff p q).1 h
  subst ht
  simp only [List.length_append] at hl
  have : t.length = 0 := by omega
  rw [List.eq_nil_of_length_eq_zero this, List.append_nil]

theorem isPre_snoc {r p : Path} {b : String} (h : isPre r (p ++ [b]) = true) :
    isPre r p = true ∨ r = p ++ [b] := by
  rcases isPre_total h (isPre_append p [b]) with hl | hr
  · exact Or.inl hl
  · have h1 := isPre_length h
    have h2 := isPre_length hr
    simp only [List.length_append, List.length_cons, List.length_nil] at h1
    rcases Nat.lt_or_ge r.length (p.length + 1) with hlt | hge
    · have : r.length = p.length := by omega
      exact Or.inl ((isPre_eq_of_length hr this.symm) ▸ isPre_refl p)
    · right
      exact isPre_eq_of_length h (by simp; omega)

theorem isPre_q_dirName {q dst : Path} (h : isPre q (dirName dst) = true) :
    isPre q dst = true :=
  isPre_trans h (isPre_dirName dst)

theorem CC_frame {h : String → String} {src dst : Path} {s : St} {q : Path}
    (h1 : isPre q dst = false) (h2 : isPre dst q = false) :
    fsGet ((compareAndCopy h src dst s).st).fs q = fsGet s.fs q := by
  rcases CC_fs_cases h src dst s with hc | hc | ⟨fs1, c, t, hfs1, _, ht, _, hres⟩
    | ⟨c, t, _, ht, _, hres⟩
  · rw [hc]
  · rw [hc]
    by_cases hch : fsGet (mkdirs s.fs (dirName dst)).1 q = fsGet s.fs q
    · exact hch
    · obtain ⟨_, _, _, h4⟩ := mkdirsGo_changed hch
      rw [List.nil_append] at h4
      rw [isPre_q_dirName h4] at h1
      cases h1
  · subst hfs1
    have hqt : q ≠ t := by
      rcases ht with ⟨ht, _⟩ | ⟨ht, _⟩
      · subst ht
        intro hq
        rw [hq, isPre_refl] at h1
        cases h1
      · subst ht
        intro hq
        rw [hq, isPre_append] at h2
        cases h2
    rw [hres, fsGet_fsSet, if_neg hqt]
    by_cases hch : fsGet (mkdirs s.fs (dirName dst)).1 q = fsGet s.fs q
    · exact hch
    · obtain ⟨_, _, _, h4⟩ := mkdirsGo_changed hch
      rw [List.nil_append] at h4
      rw [isPre_q_dirName h4] at h1
      cases h1
  · have hqt : q ≠ t := by
      rcases ht with ⟨ht, _⟩ | ⟨ht, _⟩
      · subst ht
        intro hq
        rw [hq, isPre_refl] at h1
        cases h1
      · subst ht
        intro hq
        rw [hq, isPre_append] at h2
        cases h2
    rw [hres, fsGet_fsSet, if_neg hqt]

theorem CC_preserve_file {h : String → String} {src dst : Path} {s : St}
    {q : Path} {c0 : String}
    (hq : fsGet s.fs q = some (Entry.file c0)) (h1 : q ≠ dst)
    (h2 : q ≠ dst ++ [baseName src]) :
    fsGet ((compareAndCopy h src dst s).st).fs q = some (Entry.file c0) := by
  rcases CC_fs_cases h src dst s with hc | hc | ⟨fs1, c, t, hfs1, _, ht, _, hres⟩
    | ⟨c, t, _, ht, _, hres⟩
  · rw [hc]; exact hq
  · rw [hc]
    exact mkdirsGo_preserve hq _ _
  · subst hfs1
    have hqt : q ≠ t := by
      rcases ht with ⟨ht, _⟩ | ⟨ht, _⟩ <;> rw [ht] <;> assumption
    rw [hres, fsGet_fsSet, if_neg hqt]
    exact mkdirsGo_preserve hq _ _
  · have hqt : q ≠ t := by
      rcases ht with ⟨ht, _⟩ | ⟨ht, _⟩ <;> rw [ht] <;> assumption
    rw [hres, fsGet_fsSet, if_neg hqt]
    exact hq

theorem CC_dir_preserve {h : String → String} {src dst : Path} {s : St}
    {q : Path} (hq : fsGet s.fs q = some Entry.dir) :
    fsGet ((compareAndCopy h src dst s).st).fs q = some Entry.dir := by
  rcases CC_fs_cases h src dst s with hc | hc
    | ⟨fs1, c, t, hfs1, _, _, hnd, hres⟩ | ⟨c, t, _, _, hnd, hres⟩
  · rw [hc]; exact hq
  · rw [hc]
    exact mkdirsGo_preserve hq _ _
  · subst hfs1
    have hq1 : fsGet (mkdirs s.fs (dirName dst)).1 q = some Entry.dir :=
      mkdirsGo_preserve hq _ _
    have hqt : q ≠ t := by
      intro hqt
      rw [hqt] at hq1
      unfold isDir at hnd
      rw [hq1] at hnd
      simp at hnd
    rw [hres, fsGet_fsSet, if_neg hqt]
    exact hq1
  · have hqt : q ≠ t := by
      intro hqt
      rw [hqt] at hq
      unfold isDir at hnd
      rw [hq] at hnd
      simp at hnd
    rw [hres, fsGet_fsSet, if_neg hqt]
    exact hq

theorem CC_newdir {h : String → String} {src dst : Path} {s : St} {q : Path}
    (hq : fsGet ((compareAndCopy h src dst s).st).fs q = some Entry.dir) :
    fsGet s.fs q = some Entry.dir ∨
      (fsGet s.fs q = none ∧ q ≠ ([] : Path) ∧
        isPre q (dirName dst) = true) := by
  rcases CC_fs_cases h src dst s with hc | hc
    | ⟨fs1, c, t, hfs1, _, _, _, hres⟩ | ⟨c, t, _, _, _, hres⟩
  · rw [hc] at hq; exact Or.inl hq
  · rw [hc] at hq
    by_cases hch : fsGet (mkdirs s.fs (dirName dst)).1 q = fsGet s.fs q
    · rw [hch] at hq; exact Or.inl hq
    · obtain ⟨h1, _, h3, h4⟩ := mkdirsGo_changed hch
      rw [List.nil_append] at h4
      exact Or.inr ⟨h1, h3, h4⟩
  · subst hfs1
    rw [hres, fsGet_fsSet] at hq
    by_cases hqt : q = t
    · rw [if_pos hqt] at hq; cases hq
    · rw [if_neg hqt] at hq
      by_cases hch : fsGet (mkdirs s.fs (dirName dst)).1 q = fsGet s.fs q
      · rw [hch] at hq; exact Or.inl hq
      · obtain ⟨h1, _, h3, h4⟩ := mkdirsGo_changed hch
        rw [List.nil_append] at h4
        exact Or.inr ⟨h1, h3, h4⟩
  · rw [hres, fsGet_fsSet] at hq
    by_cases hqt : q = t
    · rw [if_pos hqt] at hq; cases hq
    · rw [if_neg hqt] at hq
      exact Or.inl hq

theorem CC_nodup {h : String → String} {src dst : Path} {s : St}
    (hn : keysNodup s.fs) : keysNodup ((compareAndCopy h src dst s).st).fs := by
  rcases CC_fs_cases h src dst s with hc | hc
    | ⟨fs1, c, t, hfs1, _, _, _, hres⟩ | ⟨c, t, _, _, _, hres⟩
  · rw [hc]; exact hn
  · rw [hc]; exact mkdirsGo_nodup hn _ _
  · subst hfs1
    rw [hres]
    exact keysNodup_fsSet (mkdirsGo_nodup hn _ _) _ _
  · rw [hres]
    exact keysNodup_fsSet hn _ _

theorem CC_walk {h : String → String} {src dst : Path} {s : St} {r : Path}
    (h1 : isPre r dst = false) (h2 : isPre dst r = false) :
    walkFiles ((compareAndCopy h src dst s).st).fs r = walkFiles s.fs r := by
  have hmkw : walkFiles (mkdirs s.fs (dirName dst)).1 r = walkFiles s.fs r := by
    apply mkdirsGo_walk
    rw [List.nil_append]
    cases hx : isPre r (dirName dst) with
    | false => rfl
    | true => rw [isPre_q_dirName hx] at h1; cases h1
  have htw : ∀ t : Path, (t = dst ∨ t = dst ++ [baseName src]) →
      isPre r t = false := by
    rintro t (ht | ht)
    · rw [ht]; exact h1
    · rw [ht]
      cases hx : isPre r (dst ++ [baseName src]) with
      | false => rfl
      | true =>
        rcases isPre_snoc hx with hl | hr
        · rw [hl] at h1; cases h1
        · rw [hr, isPre_append] at h2; cases h2
  rcases CC_fs_cases h src dst s with hc | hc
    | ⟨fs1, c, t, hfs1, _, ht, _, hres⟩ | ⟨c, t, _, ht, _, hres⟩
  · rw [hc]
  · rw [hc]; exact hmkw
  · subst hfs1
    rw [hres, walkFiles_fsSet (htw t (by
      rcases ht with ⟨ht, _⟩ | ⟨ht, _⟩
      · exact Or.inl ht
      · exact Or.inr ht)), hmkw]
  · rw [hres, walkFiles_fsSet (htw t (by
      rcases ht with ⟨ht, _⟩ | ⟨ht, _⟩
      · exact Or.inl ht
      · exact Or.inr ht))]

theorem CC_ok_post {h : String → String} {src dst : Path} {s s' : St}
    {c : String}
    (ha : s.autoOv = true) (hsrc : fsGet s.fs src = some (Entry.file c))
    (hnd : isDir s.fs dst = false) (hne : src ≠ dst) (hdne : dst ≠ ([] : Path))
    (hok : compareAndCopy h src dst s = Res.ok s') :
    fsGet s'.fs src = some (Entry.file c) ∧
      getFileHash h s'.fs dst = some (h c) := by
  by_cases hdh : getFileHash h s.fs dst = none
  · rw [CC_eq_new hdh] at hok
    cases hmk : mkdirs s.fs (dirName dst) with
    | mk fs1 ok =>
      rw [hmk] at hok
      cases ok with
      | false => cases hok
      | true =>
        dsimp only at hok
        cases hcp : copy2 fs1 src dst with
        | none => rw [hcp] at hok; cases hok
        | some fs2 =>
          rw [hcp] at hok
          cases hok
          obtain ⟨c2, t, hg1, ht, hfs2, _⟩ := copy2_some hcp
          have hfs1d : fsGet fs1 dst = fsGet s.fs dst := by
            have := @mkdirs_unchanged_at s.fs dst hdne
            rw [hmk] at this
            exact this
          have hnd1 : isDir fs1 dst = false := by
            unfold isDir
            rw [hfs1d]
            unfold isDir at hnd
            exact hnd
          have hteq : t = dst := by
            rcases ht with ⟨ht, _⟩ | ⟨_, hd⟩
            · exact ht
            · rw [hnd1] at hd; cases hd
          have hsrc1 : fsGet fs1 src = some (Entry.file c) := by
            have := mkdirsGo_preserve hsrc ([] : Path) (dirName dst)
            unfold mkdirs at hmk
            rw [hmk] at this
            exact this
          have hc2 : c2 = c := by
            rw [hsrc1] at hg1
            cases hg1
            rfl
          subst hteq hc2
          constructor
          · simp only [hfs2, fsGet_fsSet, if_neg hne]
            exact hsrc1
          · unfold getFileHash
            simp [hfs2, fsGet_fsSet]
  · by_cases hsh : getFileHash h s.fs src = getFileHash h s.fs dst
    · rw [CC_eq_unchanged hdh hsh] at hok
      cases hok
      refine ⟨hsrc, ?_⟩
      rw [← hsh]
      unfold getFileHash
      rw [hsrc]
    · rw [CC_eq_changed_auto hdh hsh ha] at hok
      cases hcp : copy2 s.fs src dst with
      | none => rw [hcp] at hok; cases hok
      | some fs2 =>
        rw [hcp] at hok
        cases hok
        obtain ⟨c2, t, hg1, ht, hfs2, _⟩ := copy2_some hcp
        have hteq : t = dst := by
          rcases ht with ⟨ht, _⟩ | ⟨_, hd⟩
          · exact ht
          · rw [hnd] at hd; cases hd
        have hc2 : c2 = c := by
          rw [hsrc] at hg1
          cases hg1
          rfl
        subst hteq hc2
        constructor
        · simp only [hfs2, fsGet_fsSet, if_neg hne]
          exact hsrc
        · unfold getFileHash
          simp [hfs2, fsGet_fsSet]

theorem baseName_snoc (x : Path) (b : String) : baseName (x ++ [b]) = b := by
  rw [baseName_append (by simp)]
  rfl

theorem cross_not_pre {sp dp : Path} (h1 : isPre sp dp = false)
    (h2 : isPre dp sp = false) (a b : Path) :
    isPre (sp ++ a) (dp ++ b) = false := by
  cases hx : isPre (sp ++ a) (dp ++ b) with
  | false => rfl
  | true =>
    have hsp : isPre sp (dp ++ b) = true :=
      isPre_trans (isPre_append sp a) hx
    rcases isPre_total hsp (isPre_append dp b) with hl | hr
    · rw [hl] at h1; cases h1
    · rw [hr] at h2; cases h2

theorem append_ne_of_roots {sp dp : Path} (h1 : isPre sp dp = false)
    (h2 : isPre dp sp = false) (a b : Path) : sp ++ a ≠ dp ++ b := by
  intro he
  have hx : isPre (sp ++ a) (dp ++ b) = true := he ▸ isPre_refl _
  rw [cross_not_pre h1 h2 a b] at hx
  cases hx

/-! prompt_and_delete lemmas -/

theorem PD_fs_cases (p : Path) (s : St) :
    (promptAndDelete p s).fs = fsErase s.fs p ∨
      (promptAndDelete p s).fs = s.fs := by
  unfold promptAndDelete getUserChoice
  dsimp only
  repeat' split
  all_goals simp

theorem PD_flags (p : Path) (s : St) :
    (promptAndDelete p s).autoOv = s.autoOv ∧
    (promptAndDelete p s).autoDel = s.autoDel ∧
    (promptAndDelete p s).dryRun = s.dryRun := by
  unfold promptAndDelete getUserChoice
  dsimp only
  repeat' split
  all_goals exact ⟨rfl, rfl, rfl⟩

theorem PD_auto {p : Path} {s : St} (hd : s.autoDel = true) :
    promptAndDelete p s =
      { s with fs := fsErase s.fs p, log := s.log ++ [Action.del p] } := by
  unfold promptAndDelete
  rw [hd]
  rfl

theorem PD_frame {p : Path} {s : St} {q : Path} (hq : q ≠ p) :
    fsGet (promptAndDelete p s).fs q = fsGet s.fs q := by
  rcases PD_fs_cases p s with hc | hc
  · rw [hc, fsGet_fsErase, if_neg hq]
  · rw [hc]

theorem PD_nodup {p : Path} {s : St} (hn : keysNodup s.fs) :
    keysNodup (promptAndDelete p s).fs := by
  rcases PD_fs_cases p s with hc | hc
  · rw [hc]; exact keysNodup_fsErase hn p
  · rw [hc]; exact hn

theorem PD_walk {p : Path} {s : St} {r : Path} (hr : isPre r p = false) :
    walkFiles (promptAndDelete p s).fs r = walkFiles s.fs r := by
  rcases PD_fs_cases p s with hc | hc
  · rw [hc, walkFiles_fsErase hr]
  · rw [hc]

theorem PD_sublist (p : Path) (s : St) :
    List.Sublist (promptAndDelete p s).fs s.fs := by
  rcases PD_fs_cases p s with hc | hc
  · rw [hc]; exact fsErase_sublist s.fs p
  · rw [hc]

/-! Phase 1 (the source walk of update_install) -/

theorem RP1_frame {h : String → String} {sp dp : Path} :
    ∀ {L : List Path} {s : St} {q : Path},
    (∀ rel ∈ L, isPre q (dp ++ rel) = false ∧ isPre (dp ++ rel) q = false) →
    fsGet ((runPhase1 h sp dp L s).st).fs q = fsGet s.fs q := by
  intro L
  induction L with
  | nil => intro s q _; rfl
  | cons rel rest ih =>
    intro s q hq
    unfold runPhase1
    split
    · exact ih (fun r hr => hq r (List.mem_cons_of_mem rel hr))
    · cases hcc : compareAndCopy h (sp ++ rel) (dp ++ rel) s with
      | err s1 =>
        have : ((Res.err s1).st).fs = ((compareAndCopy h (sp ++ rel)
            (dp ++ rel) s).st).fs := by rw [hcc]
        dsimp only
        rw [Res.st] at this ⊢
        rw [this]
        exact CC_frame (hq rel (List.mem_cons_self rel rest)).1
          (hq rel (List.mem_cons_self rel rest)).2
      | ok s1 =>
        dsimp only
        have h1 : fsGet s1.fs q = fsGet s.fs q := by
          have : s1 = ((compareAndCopy h (sp ++ rel) (dp ++ rel) s).st) := by
            rw [hcc]
            rfl
          rw [this]
          exact CC_frame (hq rel (List.mem_cons_self rel rest)).1
            (hq rel (List.mem_cons_self rel rest)).2
        rw [ih (fun r hr => hq r (List.mem_cons_of_mem rel hr)), h1]

/-- Any state property preserved by every non-protected compare_and_copy
step is preserved by the whole first walk, including an aborted one. -/
theorem RP1_inv {h : String → String} {sp dp : Path} {P : St → Prop}
    (hP : ∀ (rel : Path) (s : St),
      protectedFiles.contains (baseName rel) = false →
      P s → P ((compareAndCopy h (sp ++ rel) (dp ++ rel) s).st)) :
    ∀ {L : List Path} {s : St}, P s → P ((runPhase1 h sp dp L s).st) := by
  intro L
  induction L with
  | nil => intro s hp; exact hp
  | cons rel rest ih =>
    intro s hp
    unfold runPhase1
    split
    · exact ih hp
    · rename_i hprot
      cases hcc : compareAndCopy h (sp ++ rel) (dp ++ rel) s with
      | err s1 =>
        have hst := hP rel s (by simpa using hprot) hp
        rw [hcc] at hst
        exact hst
      | ok s1 =>
        have hst := hP rel s (by simpa using hprot) hp
        rw [hcc] at hst
        exact ih hst

theorem isDir_false_of_ne {fs : FS} {p : Path}
    (h : fsGet fs p ≠ some Entry.dir) : isDir fs p = false := by
  unfold isDir
  simpa using h

theorem RP1_nodup {h : String → String} {sp dp : Path} {L : List Path}
    {s : St} (hn : keysNodup s.fs) :
    keysNodup ((runPhase1 h sp dp L s).st).fs :=
  RP1_inv (P := fun st => keysNodup st.fs)
    (fun _ _ _ hp => CC_nodup hp) hn

theorem RP1_dir_preserve {h : String → String} {sp dp : Path} {L : List Path}
    {s : St} {q : Path} (hq : fsGet s.fs q = some Entry.dir) :
    fsGet ((runPhase1 h sp dp L s).st).fs q = some Entry.dir :=
  RP1_inv (P := fun st => fsGet st.fs q = some Entry.dir)
    (fun _ _ _ hp => CC_dir_preserve hp) hq

theorem RP1_walk {h : String → String} {sp dp : Path} {L : List Path}
    {s : St} {r : Path} (h1 : isPre r dp = false) (h2 : isPre dp r = false) :
    walkFiles ((runPhase1 h sp dp L s).st).fs r = walkFiles s.fs r :=
  RP1_inv (P := fun st => walkFiles st.fs r = walkFiles s.fs r)
    (fun rel s2 _ hp => by
      rw [← hp]
      apply CC_walk
      · cases hx : isPre r (dp ++ rel) with
        | false => rfl
        | true =>
          rcases isPre_total hx (isPre_append dp rel) with hl | hr
          · rw [hl] at h1; cases h1
          · rw [hr] at h2; cases h2
      · cases hx : isPre (dp ++ rel) r with
        | false => rfl
        | true =>
          have : isPre dp r = true := isPre_trans (isPre_append dp rel) hx
          rw [this] at h2
          cases h2) rfl

theorem RP1_flags {h : String → String} {sp dp : Path} {L : List Path}
    {s : St} :
    ((runPhase1 h sp dp L s).st).autoOv = s.autoOv ∧
    ((runPhase1 h sp dp L s).st).autoDel = s.autoDel ∧
    ((runPhase1 h sp dp L s).st).dryRun = s.dryRun :=
  RP1_inv (P := fun st => st.autoOv = s.autoOv ∧ st.autoDel = s.autoDel ∧
      st.dryRun = s.dryRun)
    (fun rel s2 _ hp => by
      obtain ⟨f1, f2, f3⟩ := CC_flags h (sp ++ rel) (dp ++ rel) s2
      exact ⟨f1.trans hp.1, f2.trans hp.2.1, f3.trans hp.2.2⟩)
    ⟨rfl, rfl, rfl⟩

theorem RP1_answers_auto {h : String → String} {sp dp : Path} {L : List Path}
    {s : St} (ha : s.autoOv = true) :
    ((runPhase1 h sp dp L s).st).answers = s.answers ∧
    ((runPhase1 h sp dp L s).st).autoOv = true :=
  RP1_inv (P := fun st => st.answers = s.answers ∧ st.autoOv = true)
    (fun rel s2 _ hp => by
      obtain ⟨f1, _, _⟩ := CC_flags h (sp ++ rel) (dp ++ rel) s2
      exact ⟨(CC_answers_auto h (sp ++ rel) (dp ++ rel) hp.2).trans hp.1,
        f1.trans hp.2⟩)
    ⟨rfl, ha⟩

theorem RP1_prot {h : String → String} {sp dp : Path} {L : List Path}
    {s : St} {q : Path} {c0 : String}
    (hq : protectedFiles.contains (baseName q) = true)
    (hsp : protectedFiles.contains (baseName sp) = false)
    (hdp : protectedFiles.contains (baseName dp) = false)
    (hfile : fsGet s.fs q = some (Entry.file c0)) :
    fsGet ((runPhase1 h sp dp L s).st).fs q = some (Entry.file c0) :=
  RP1_inv (P := fun st => fsGet st.fs q = some (Entry.file c0))
    (fun rel s2 hrel hp => by
      have hbdst : protectedFiles.contains (baseName (dp ++ rel)) = false := by
        by_cases hrn : rel = ([] : Path)
        · rw [hrn, List.append_nil]; exact hdp
        · rw [baseName_append hrn]; exact hrel
      have hbsrc : protectedFiles.contains (baseName (sp ++ rel)) = false := by
        by_cases hrn : rel = ([] : Path)
        · rw [hrn, List.append_nil]; exact hsp
        · rw [baseName_append hrn]; exact hrel
      apply CC_preserve_file hp
      · intro he
        rw [he, hbdst] at hq
        cases hq
      · intro he
        rw [he, baseName_snoc] at hq
        rw [hq] at hbsrc
        cases hbsrc) hfile

theorem RP1_noop {h : String → String} {sp dp : Path} :
    ∀ {L : List Path} {s : St},
    (∀ rel ∈ L, protectedFiles.contains (baseName rel) = false →
      getFileHash h s.fs (dp ++ rel) ≠ none ∧
      getFileHash h s.fs (sp ++ rel) = getFileHash h s.fs (dp ++ rel)) →
    runPhase1 h sp dp L s = Res.ok s := by
  intro L
  induction L with
  | nil => intro s _; rfl
  | cons rel rest ih =>
    intro s hL
    unfold runPhase1
    split
    · exact ih (fun r hr hp => hL r (List.mem_cons_of_mem rel hr) hp)
    · rename_i hprot
      obtain ⟨hdh, hsh⟩ := hL rel (List.mem_cons_self rel rest)
        (by simpa using hprot)
      rw [CC_eq_unchanged hdh hsh]
      exact ih (fun r hr hp => hL r (List.mem_cons_of_mem rel hr) hp)

/--
Postcondition of a successful first walk: every walked non-protected
source file ends with its destination hash equal to its source hash.
Requires the walk roots to be incomparable, the destination paths of the
walked files not to be directories, and the walked relative paths to be
pairwise prefix-incomparable (true of any real directory tree).
-/
theorem RP1_ok_post {h : String → String} {sp dp : Path} :
    ∀ {L : List Path} {s s' : St},
    s.autoOv = true →
    isPre sp dp = false → isPre dp sp = false → dp ≠ ([] : Path) →
    (∀ rel ∈ L, protectedFiles.contains (baseName rel) = false →
      ∃ c, fsGet s.fs (sp ++ rel) = some (Entry.file c)) →
    (∀ rel ∈ L, protectedFiles.contains (baseName rel) = false →
      fsGet s.fs (dp ++ rel) ≠ some Entry.dir) →
    L.Pairwise (fun a b => isPre a b = false ∧ isPre b a = false) →
    runPhase1 h sp dp L s = Res.ok s' →
    ∀ rel ∈ L, protectedFiles.contains (baseName rel) = false →
      ∃ c, fsGet s'.fs (sp ++ rel) = some (Entry.file c) ∧
        getFileHash h s'.fs (dp ++ rel) = some (h c) := by
  intro L
  induction L with
  | nil => intro s s' _ _ _ _ _ _ _ _ rel hrel; cases hrel
  | cons rel rest ih =>
    intro s s' ha hsp hdp hdpn hsrc hnodir hpair hok
    rw [runPhase1] at hok
    by_cases hprot : protectedFiles.contains (baseName rel) = true
    · rw [if_pos hprot] at hok
      intro r hr hrp
      rcases List.mem_cons.1 hr with hre | hrm
      · rw [hre] at hrp
        rw [hrp] at hprot
        cases hprot
      · exact ih ha hsp hdp hdpn
          (fun r2 h2 => hsrc r2 (List.mem_cons_of_mem rel h2))
          (fun r2 h2 => hnodir r2 (List.mem_cons_of_mem rel h2))
          (List.Pairwise.sublist (List.sublist_cons_self rel rest) hpair)
          hok r hrm hrp
    · rw [if_neg hprot] at hok
      revert hok
      cases hcc : compareAndCopy h (sp ++ rel) (dp ++ rel) s with
      | err s1 => intro hok; cases hok
      | ok s1 =>
        intro hok
        dsimp only at hok
        have hrelp : protectedFiles.contains (baseName rel) = false := by
          simpa using hprot
        obtain ⟨c, hc⟩ := hsrc rel (List.mem_cons_self rel rest) hrelp
        have hccst : s1 = (compareAndCopy h (sp ++ rel) (dp ++ rel) s).st := by
          rw [hcc]; rfl
        have hpost := CC_ok_post (c := c) ha hc
          (isDir_false_of_ne (hnodir rel (List.mem_cons_self rel rest) hrelp))
          (append_ne_of_roots hsp hdp rel rel)
          (by intro hx; exact hdpn (by
            cases dp with
            | nil => rfl
            | cons a as => cases hx))
          hcc
        have hcross : ∀ r2 ∈ rest,
            isPre (sp ++ rel) (dp ++ r2) = false ∧
            isPre (dp ++ r2) (sp ++ rel) = false :=
          fun r2 _ => ⟨cross_not_pre hsp hdp rel r2, cross_not_pre hdp hsp r2 rel⟩
        have hpairh := (List.pairwise_cons.1 hpair).1
        have hcross2 : ∀ r2 ∈ rest,
            isPre (dp ++ rel) (dp ++ r2) = false ∧
            isPre (dp ++ r2) (dp ++ rel) = false := by
          intro r2 h2
          constructor
          · rw [isPre_cancel]
            exact (hpairh r2 h2).1
          · rw [isPre_cancel]
            exact (hpairh r2 h2).2
        -- facts transported to the final state
        have hsrc' : fsGet s'.fs (sp ++ rel) = some (Entry.file c) := by
          have hfr := @RP1_frame h sp dp rest
            s1 (sp ++ rel) hcross
          rw [hok] at hfr
          rw [Res.st] at hfr
          rw [hfr]
          exact hpost.1
        have hdst' : getFileHash h s'.fs (dp ++ rel) = some (h c) := by
          have hfr := @RP1_frame h sp dp rest
            s1 (dp ++ rel) hcross2
          rw [hok] at hfr
          rw [Res.st] at hfr
          unfold getFileHash at hpost ⊢
          rw [hfr]
          exact hpost.2
        -- hypotheses transported one step for the induction
        have hsrc1 : ∀ r2 ∈ rest,
            protectedFiles.contains (baseName r2) = false →
            ∃ c2, fsGet s1.fs (sp ++ r2) = some (Entry.file c2) := by
          intro r2 h2 hp2
          obtain ⟨c2, hc2⟩ := hsrc r2 (List.mem_cons_of_mem rel h2) hp2
          refine ⟨c2, ?_⟩
          rw [hccst]
          rw [CC_frame (cross_not_pre hsp hdp r2 rel)
            (cross_not_pre hdp hsp rel r2)]
          exact hc2
        have hnodir1 : ∀ r2 ∈ rest,
            protectedFiles.contains (baseName r2) = false →
            fsGet s1.fs (dp ++ r2) ≠ some Entry.dir := by
          intro r2 h2 hp2 hdirc
          rw [hccst] at hdirc
          rcases CC_newdir hdirc with hold | ⟨_, _, hpre⟩
          · exact hnodir r2 (List.mem_cons_of_mem rel h2) hp2 hold
          · have : isPre (dp ++ r2) (dp ++ rel) = true :=
              isPre_q_dirName hpre
            rw [isPre_cancel] at this
            rw [(hpairh r2 h2).2] at this
            cases this
        have ha1 : s1.autoOv = true := by
          rw [hccst]
          rw [(CC_flags h (sp ++ rel) (dp ++ rel) s).1]
          exact ha
        intro r hr hrp
        rcases List.mem_cons.1 hr with hre | hrm
        · subst hre
          exact ⟨c, hsrc', hdst'⟩
        · exact ih ha1 hsp hdp hdpn hsrc1 hnodir1
            (List.Pairwise.sublist (List.sublist_cons_self rel rest) hpair)
            hok r hrm hrp

/-! Phase 2 (the destination walk of update_install) -/

/-- Any state property preserved by every performed orphan-deletion step
is preserved by the whole second walk. -/
theorem RP2_inv {sp dp : Path} {P : St → Prop} :
    ∀ {W : List Path},
    (∀ rel ∈ W, ∀ s : St,
      protectedFiles.contains (baseName rel) = false →
      pathExists s.fs (sp ++ rel) = false →
      P s → P (promptAndDelete (dp ++ rel) s)) →
    ∀ {s : St}, P s → P (runPhase2 sp dp W s) := by
  intro W
  induction W with
  | nil => intro _ s hp; exact hp
  | cons rel rest ih =>
    intro hP s hp
    unfold runPhase2
    split
    · exact ih (fun r hr => hP r (List.mem_cons_of_mem rel hr)) hp
    · split
      · exact ih (fun r hr => hP r (List.mem_cons_of_mem rel hr)) hp
      · rename_i hprot hex
        exact ih (fun r hr => hP r (List.mem_cons_of_mem rel hr))
          (hP rel (List.mem_cons_self rel rest) s (by simpa using hprot)
            (by simpa using hex) hp)

theorem RP2_flags {sp dp : Path} {W : List Path} {s : St} :
    (runPhase2 sp dp W s).autoOv = s.autoOv ∧
    (runPhase2 sp dp W s).autoDel = s.autoDel ∧
    (runPhase2 sp dp W s).dryRun = s.dryRun :=
  RP2_inv (P := fun st => st.autoOv = s.autoOv ∧ st.autoDel = s.autoDel ∧
      st.dryRun = s.dryRun)
    (fun rel _ s2 _ _ hp => by
      obtain ⟨f1, f2, f3⟩ := PD_flags (dp ++ rel) s2
      exact ⟨f1.trans hp.1, f2.trans hp.2.1, f3.trans hp.2.2⟩)
    ⟨rfl, rfl, rfl⟩

theorem RP2_nodup {sp dp : Path} {W : List Path} {s : St}
    (hn : keysNodup s.fs) : keysNodup (runPhase2 sp dp W s).fs :=
  RP2_inv (P := fun st => keysNodup st.fs)
    (fun _ _ _ _ _ hp => PD_nodup hp) hn

theorem RP2_answers_auto {sp dp : Path} {W : List Path} {s : St}
    (ha : s.autoDel = true) :
    (runPhase2 sp dp W s).answers = s.answers ∧
    (runPhase2 sp dp W s).autoDel = true :=
  RP2_inv (P := fun st => st.answers = s.answers ∧ st.autoDel = true)
    (fun rel _ s2 _ _ hp => by
      rw [PD_auto hp.2]
      exact hp) ⟨rfl, ha⟩

theorem RP2_frame {sp dp : Path} {W : List Path} {s : St} {q : Path}
    (hq : ∀ rel ∈ W, dp ++ rel ≠ q) :
    fsGet (runPhase2 sp dp W s).fs q = fsGet s.fs q :=
  RP2_inv (P := fun st => fsGet st.fs q = fsGet s.fs q)
    (fun rel hr s2 _ _ hp => by
      dsimp only at hp ⊢
      rw [PD_frame (fun he => hq rel hr he.symm)]
      exact hp) rfl

theorem RP2_walk {sp dp : Path} {W : List Path} {s : St} {r : Path}
    (hr : ∀ rel ∈ W, isPre r (dp ++ rel) = false) :
    walkFiles (runPhase2 sp dp W s).fs r = walkFiles s.fs r :=
  RP2_inv (P := fun st => walkFiles st.fs r = walkFiles s.fs r)
    (fun rel hm s2 _ _ hp => by
      dsimp only at hp ⊢
      rw [PD_walk (hr rel hm)]
      exact hp) rfl

theorem RP2_none {sp dp : Path} {W : List Path} {s : St} {q : Path}
    (hq : fsGet s.fs q = none) :
    fsGet (runPhase2 sp dp W s).fs q = none :=
  RP2_inv (P := fun st => fsGet st.fs q = none)
    (fun rel _ s2 _ _ hp => by
      dsimp only at hp ⊢
      rcases PD_fs_cases (dp ++ rel) s2 with hc | hc
      · rw [hc, fsGet_fsErase]
        split
        · rfl
        · exact hp
      · rw [hc]; exact hp) hq

theorem RP2_sublist {sp dp : Path} {W : List Path} {s : St} :
    List.Sublist (runPhase2 sp dp W s).fs s.fs :=
  RP2_inv (P := fun st => List.Sublist st.fs s.fs)
    (fun rel _ s2 _ _ hp => List.Sublist.trans (PD_sublist (dp ++ rel) s2) hp)
    (List.Sublist.refl s.fs)

theorem RP2_prot {sp dp : Path} {W : List Path} {s : St} {q : Path}
    {c0 : String}
    (hq : protectedFiles.contains (baseName q) = true)
    (hdp : protectedFiles.contains (baseName dp) = false)
    (hfile : fsGet s.fs q = some (Entry.file c0)) :
    fsGet (runPhase2 sp dp W s).fs q = some (Entry.file c0) :=
  RP2_inv (P := fun st => fsGet st.fs q = some (Entry.file c0))
    (fun rel _ s2 hrel _ hp => by
      dsimp only at hp ⊢
      have hbdst : protectedFiles.contains (baseName (dp ++ rel)) = false := by
        by_cases hrn : rel = ([] : Path)
        · rw [hrn, List.append_nil]; exact hdp
        · rw [baseName_append hrn]; exact hrel
      apply (PD_frame (fun he => ?_)).trans hp
      rw [← he, hq] at hbdst
      cases hbdst) hfile

theorem RP2_keeps {sp dp : Path} {W : List Path} {s : St} {rel0 : Path}
    (hsp : isPre sp dp = false) (hdp : isPre dp sp = false)
    (hex : pathExists s.fs (sp ++ rel0) = true) :
    fsGet (runPhase2 sp dp W s).fs (dp ++ rel0) = fsGet s.fs (dp ++ rel0) :=
  (RP2_inv (P := fun st => fsGet st.fs (dp ++ rel0) = fsGet s.fs (dp ++ rel0) ∧
      pathExists st.fs (sp ++ rel0) = true)
    (fun rel _ s2 _ hnex hp => by
      dsimp only at hp ⊢
      have hne : dp ++ rel ≠ dp ++ rel0 := by
        intro he
        have hrr : rel = rel0 := by
          have := congrArg (List.drop dp.length) he
          simpa using this
        rw [hrr] at hnex
        rw [hnex] at hp
        cases hp.2
      have hne2 : dp ++ rel ≠ sp ++ rel0 :=
        append_ne_of_roots hdp hsp rel rel0
      constructor
      · rw [PD_frame (fun he => hne he.symm)]
        exact hp.1
      · unfold pathExists
        rw [PD_frame (fun he => hne2 he.symm)]
        exact hp.2) ⟨rfl, hex⟩).1

theorem RP2_post {sp dp : Path} (hsp : isPre sp dp = false)
    (hdp : isPre dp sp = false) :
    ∀ {W : List Path} {s : St}, s.autoDel = true →
    ∀ rel ∈ W, protectedFiles.contains (baseName rel) = true ∨
      pathExists (runPhase2 sp dp W s).fs (sp ++ rel) = true ∨
      pathExists (runPhase2 sp dp W s).fs (dp ++ rel) = false := by
  intro W
  induction W with
  | nil => intro s _ rel hrel; cases hrel
  | cons rel rest ih =>
    intro s ha r hr
    rw [runPhase2]
    by_cases hprot : protectedFiles.contains (baseName rel) = true
    · rw [if_pos hprot]
      rcases List.mem_cons.1 hr with hre | hrm
      · subst hre
        exact Or.inl hprot
      · exact ih ha r hrm
    · rw [if_neg hprot]
      by_cases hex : pathExists s.fs (sp ++ rel) = true
      · rw [if_pos hex]
        rcases List.mem_cons.1 hr with hre | hrm
        · subst hre
          right; left
          have : ∀ r2 ∈ rest, dp ++ r2 ≠ sp ++ r := fun r2 _ =>
            append_ne_of_roots hdp hsp r2 r
          unfold pathExists
          rw [RP2_frame this]
          exact hex
        · exact ih ha r hrm
      · rw [if_neg hex]
        have hpd := PD_auto (p := dp ++ rel) (s := s) ha
        rcases List.mem_cons.1 hr with hre | hrm
        · subst hre
          right; right
          have hnone : fsGet (promptAndDelete (dp ++ r) s).fs (dp ++ r)
              = none := by
            rw [hpd]
            dsimp only
            rw [fsGet_fsErase]
            simp
          unfold pathExists
          rw [RP2_none hnone]
          rfl
        · have ha2 : (promptAndDelete (dp ++ rel) s).autoDel = true := by
            rw [hpd]
            exact ha
          exact ih ha2 r hrm

theorem RP2_noop {sp dp : Path} :
    ∀ {W : List Path} {s : St},
    (∀ rel ∈ W, protectedFiles.contains (baseName rel) = true ∨
      pathExists s.fs (sp ++ rel) = true) →
    runPhase2 sp dp W s = s := by
  intro W
  induction W with
  | nil => intro s _; rfl
  | cons rel rest ih =>
    intro s hW
    rw [runPhase2]
    rcases hW rel (List.mem_cons_self rel rest) with hprot | hex
    · rw [if_pos hprot]
      exact ih (fun r hr => hW r (List.mem_cons_of_mem rel hr))
    · rw [hex]
      split
      · exact ih (fun r hr => hW r (List.mem_cons_of_mem rel hr))
      · exact ih (fun r hr => hW r (List.mem_cons_of_mem rel hr))

theorem walk_mem_fsGet {fs : FS} {root rel : Path} (hn : keysNodup fs)
    (h : rel ∈ walkFiles fs root) :
    ∃ c, fsGet fs (root ++ rel) = some (Entry.file c) ∧ rel ≠ ([] : Path) := by
  obtain ⟨c, hmem, hne, _⟩ := walkFiles_mem_entry h
  exact ⟨c, fsGet_eq_of_mem hn hmem, hne⟩

theorem pathExists_of_walk_mem {fs : FS} {root rel : Path}
    (h : rel ∈ walkFiles fs root) : pathExists fs (root ++ rel) = true := by
  obtain ⟨c, hmem, _, _⟩ := walkFiles_mem_entry h
  exact pathExists_of_mem hmem

/-! updateFolder: composed facts about one core-folder iteration -/

theorem UF_cases (h : String → String) (srcDir cfgDir : Path) (f : String)
    (s : St) :
    (isDir s.fs (cfgDir ++ [f]) = false ∧
      updateFolder h srcDir cfgDir f s = Res.ok s) ∨
    (isDir s.fs (cfgDir ++ [f]) = true ∧ ∃ s1,
      runPhase1 h (srcDir ++ [f]) (cfgDir ++ [f])
        (walkFiles s.fs (srcDir ++ [f])) s = Res.err s1 ∧
      updateFolder h srcDir cfgDir f s = Res.err s1) ∨
    (isDir s.fs (cfgDir ++ [f]) = true ∧ ∃ s1,
      runPhase1 h (srcDir ++ [f]) (cfgDir ++ [f])
        (walkFiles s.fs (srcDir ++ [f])) s = Res.ok s1 ∧
      updateFolder h srcDir cfgDir f s = Res.ok
        (runPhase2 (srcDir ++ [f]) (cfgDir ++ [f])
          (walkFiles s1.fs (cfgDir ++ [f])) s1)) := by
  unfold updateFolder
  dsimp only
  cases hd : isDir s.fs (cfgDir ++ [f]) with
  | false =>
    left
    exact ⟨rfl, by simp⟩
  | true =>
    cases hrp : runPhase1 h (srcDir ++ [f]) (cfgDir ++ [f])
        (walkFiles s.fs (srcDir ++ [f])) s with
    | err s1 =>
      right; left
      exact ⟨rfl, s1, rfl, by simp⟩
    | ok s1 =>
      right; right
      exact ⟨rfl, s1, rfl, by simp⟩

theorem UF_nodup {h : String → String} {srcDir cfgDir : Path} {f : String}
    {s : St} (hn : keysNodup s.fs) :
    keysNodup ((updateFolder h srcDir cfgDir f s).st).fs := by
  rcases UF_cases h srcDir cfgDir f s with ⟨_, he⟩ | ⟨_, s1, hrp, he⟩
    | ⟨_, s1, hrp, he⟩
  · rw [he]; exact hn
  · rw [he]
    have := @RP1_nodup h (srcDir ++ [f]) (cfgDir ++ [f])
      (walkFiles s.fs (srcDir ++ [f])) s hn
    rw [hrp] at this
    exact this
  · rw [he]
    have h1 := @RP1_nodup h (srcDir ++ [f]) (cfgDir ++ [f])
      (walkFiles s.fs (srcDir ++ [f])) s hn
    rw [hrp] at h1
    exact RP2_nodup h1

theorem UF_frame {h : String → String} {srcDir cfgDir : Path} {f : String}
    {s : St} {q : Path} (h1 : isPre q (cfgDir ++ [f]) = false)
    (h2 : isPre (cfgDir ++ [f]) q = false) :
    fsGet ((updateFolder h srcDir cfgDir f s).st).fs q = fsGet s.fs q := by
  have hrel : ∀ rel : Path, isPre q ((cfgDir ++ [f]) ++ rel) = false ∧
      isPre ((cfgDir ++ [f]) ++ rel) q = false := by
    intro rel
    constructor
    · cases hx : isPre q ((cfgDir ++ [f]) ++ rel) with
      | false => rfl
      | true =>
        rcases isPre_total hx (isPre_append (cfgDir ++ [f]) rel) with hl | hr
        · rw [hl] at h1; cases h1
        · rw [hr] at h2; cases h2
    · cases hx : isPre ((cfgDir ++ [f]) ++ rel) q with
      | false => rfl
      | true =>
        have := isPre_trans (isPre_append (cfgDir ++ [f]) rel) hx
        rw [this] at h2
        cases h2
  rcases UF_cases h srcDir cfgDir f s with ⟨_, he⟩ | ⟨_, s1, hrp, he⟩
    | ⟨_, s1, hrp, he⟩
  · rw [he]
    rfl
  · rw [he]
    have := @RP1_frame h (srcDir ++ [f]) (cfgDir ++ [f])
      (walkFiles s.fs (srcDir ++ [f])) s q
      (fun rel _ => hrel rel)
    rw [hrp] at this
    exact this
  · rw [he]
    have hp1 := @RP1_frame h (srcDir ++ [f]) (cfgDir ++ [f])
      (walkFiles s.fs (srcDir ++ [f])) s q
      (fun rel _ => hrel rel)
    rw [hrp] at hp1
    rw [Res.st] at hp1
    have hp2 := @RP2_frame (srcDir ++ [f]) (cfgDir ++ [f])
      (walkFiles s1.fs (cfgDir ++ [f])) s1 q
      (fun rel _ he2 => by
        rw [← he2] at h2
        rw [isPre_append] at h2
        cases h2)
    rw [Res.st]
    rw [hp2]
    exact hp1

theorem UF_walk {h : String → String} {srcDir cfgDir : Path} {f : String}
    {s : St} {r : Path} (h1 : isPre r (cfgDir ++ [f]) = false)
    (h2 : isPre (cfgDir ++ [f]) r = false) :
    walkFiles ((updateFolder h srcDir cfgDir f s).st).fs r
      = walkFiles s.fs r := by
  rcases UF_cases h srcDir cfgDir f s with ⟨_, he⟩ | ⟨_, s1, hrp, he⟩
    | ⟨_, s1, hrp, he⟩
  · rw [he]
    rfl
  · rw [he]
    have := @RP1_walk h (srcDir ++ [f]) (cfgDir ++ [f])
      (walkFiles s.fs (srcDir ++ [f])) s r h1 h2
    rw [hrp] at this
    exact this
  · rw [he]
    have hp1 := @RP1_walk h (srcDir ++ [f]) (cfgDir ++ [f])
      (walkFiles s.fs (srcDir ++ [f])) s r h1 h2
    rw [hrp] at hp1
    rw [Res.st] at hp1
    have hp2 := @RP2_walk (srcDir ++ [f]) (cfgDir ++ [f])
      (walkFiles s1.fs (cfgDir ++ [f])) s1 r
      (fun rel _ => by
        cases hx : isPre r ((cfgDir ++ [f]) ++ rel) with
        | false => rfl
        | true =>
          rcases isPre_total hx (isPre_append (cfgDir ++ [f]) rel) with hl | hr
          · rw [hl] at h1; cases h1
          · rw [hr] at h2; cases h2)
    rw [Res.st]
    rw [hp2]
    exact hp1

theorem UF_prot {h : String → String} {srcDir cfgDir : Path} {f : String}
    {s : St} {q : Path} {c0 : String}
    (hq : protectedFiles.contains (baseName q) = true)
    (hf : protectedFiles.contains f = false)
    (hfile : fsGet s.fs q = some (Entry.file c0)) :
    fsGet ((updateFolder h srcDir cfgDir f s).st).fs q
      = some (Entry.file c0) := by
  have hbs : protectedFiles.contains (baseName (srcDir ++ [f])) = false := by
    rw [baseName_snoc]; exact hf
  have hbd : protectedFiles.contains (baseName (cfgDir ++ [f])) = false := by
    rw [baseName_snoc]; exact hf
  rcases UF_cases h srcDir cfgDir f s with ⟨_, he⟩ | ⟨_, s1, hrp, he⟩
    | ⟨_, s1, hrp, he⟩
  · rw [he]; exact hfile
  · rw [he]
    have := @RP1_prot h (srcDir ++ [f]) (cfgDir ++ [f])
      (walkFiles s.fs (srcDir ++ [f])) s _ _ hq hbs hbd hfile
    rw [hrp] at this
    exact this
  · rw [he]
    have hp1 := @RP1_prot h (srcDir ++ [f]) (cfgDir ++ [f])
      (walkFiles s.fs (srcDir ++ [f])) s _ _ hq hbs hbd hfile
    rw [hrp] at hp1
    rw [Res.st] at hp1
    rw [Res.st]
    exact RP2_prot hq hbd hp1

theorem UF_dir_preserve {h : String → String} {srcDir cfgDir : Path}
    {f : String} {s : St} {q : Path} (hn : keysNodup s.fs)
    (hq : fsGet s.fs q = some Entry.dir) :
    fsGet ((updateFolder h srcDir cfgDir f s).st).fs q = some Entry.dir := by
  rcases UF_cases h srcDir cfgDir f s with ⟨_, he⟩ | ⟨_, s1, hrp, he⟩
    | ⟨_, s1, hrp, he⟩
  · rw [he]; exact hq
  · rw [he]
    have := @RP1_dir_preserve h (srcDir ++ [f])
      (cfgDir ++ [f]) (walkFiles s.fs (srcDir ++ [f])) s _ hq
    rw [hrp] at this
    exact this
  · rw [he]
    have hp1 := @RP1_dir_preserve h (srcDir ++ [f])
      (cfgDir ++ [f]) (walkFiles s.fs (srcDir ++ [f])) s _ hq
    rw [hrp] at hp1
    rw [Res.st] at hp1
    have hn1 : keysNodup s1.fs := by
      have := @RP1_nodup h (srcDir ++ [f]) (cfgDir ++ [f])
        (walkFiles s.fs (srcDir ++ [f])) s hn
      rw [hrp] at this
      exact this
    rw [Res.st]
    exact (@RP2_inv (srcDir ++ [f]) (cfgDir ++ [f])
      (fun st => fsGet st.fs q = some Entry.dir ∧
        (∀ p, fsGet st.fs p = fsGet s1.fs p ∨ fsGet st.fs p = none))
      _
      (fun rel hm s2 _ _ hp => by
        dsimp only at hp ⊢
        obtain ⟨c, hc, _⟩ := walk_mem_fsGet hn1 hm
        have hne : q ≠ (cfgDir ++ [f]) ++ rel := by
          intro he2
          rcases hp.2 q with hsame | hnone
          · have hd1 : fsGet s1.fs q = some Entry.dir := by
              rw [← hsame]
              exact hp.1
            rw [he2, hc] at hd1
            cases hd1
          · have hd1 := hp.1
            rw [hnone] at hd1
            cases hd1
        constructor
        · rw [PD_frame hne]
          exact hp.1
        · intro p
          rcases PD_fs_cases ((cfgDir ++ [f]) ++ rel) s2 with hcs | hcs
          · rw [hcs, fsGet_fsErase]
            split
            · exact Or.inr rfl
            · exact hp.2 p
          · rw [hcs]
            exact hp.2 p)
      _ ⟨hp1, fun _ => Or.inl rfl⟩).1

theorem UF_flags_auto {h : String → String} {srcDir cfgDir : Path}
    {f : String} {s : St} (ha : s.autoOv = true) (had : s.autoDel = true) :
    ((updateFolder h srcDir cfgDir f s).st).answers = s.answers ∧
    ((updateFolder h srcDir cfgDir f s).st).autoOv = true ∧
    ((updateFolder h srcDir cfgDir f s).st).autoDel = true ∧
    ((updateFolder h srcDir cfgDir f s).st).dryRun = s.dryRun := by
  rcases UF_cases h srcDir cfgDir f s with ⟨_, he⟩ | ⟨_, s1, hrp, he⟩
    | ⟨_, s1, hrp, he⟩
  · rw [he]; exact ⟨rfl, ha, had, rfl⟩
  · rw [he]
    have h1 := @RP1_answers_auto h (srcDir ++ [f])
      (cfgDir ++ [f]) (walkFiles s.fs (srcDir ++ [f])) s ha
    have h2 := @RP1_flags h (srcDir ++ [f])
      (cfgDir ++ [f]) (walkFiles s.fs (srcDir ++ [f])) s
    rw [hrp] at h1 h2
    exact ⟨h1.1, h1.2, h2.2.1.trans had, h2.2.2⟩
  · rw [he]
    have h1 := @RP1_answers_auto h (srcDir ++ [f])
      (cfgDir ++ [f]) (walkFiles s.fs (srcDir ++ [f])) s ha
    have h2 := @RP1_flags h (srcDir ++ [f])
      (cfgDir ++ [f]) (walkFiles s.fs (srcDir ++ [f])) s
    rw [hrp] at h1 h2
    rw [Res.st] at h1 h2
    have h3 := @RP2_answers_auto (srcDir ++ [f]) (cfgDir ++ [f])
      (walkFiles s1.fs (cfgDir ++ [f])) s1 (h2.2.1.trans had)
    have h4 := @RP2_flags (srcDir ++ [f]) (cfgDir ++ [f])
      (walkFiles s1.fs (cfgDir ++ [f])) s1
    rw [Res.st]
    exact ⟨h3.1.trans h1.1, h4.1.trans h1.2, h3.2, h4.2.2.trans h2.2.2⟩

/-! The fold over core folders, and the structure of update_install -/

theorem UFS_inv {h : String → String} {srcDir cfgDir : Path} {P : St → Prop} :
    ∀ {fl : List String},
    (∀ f ∈ fl, ∀ s : St, P s → P ((updateFolder h srcDir cfgDir f s).st)) →
    ∀ {s : St}, P s → P ((updateFolders h srcDir cfgDir fl s).st) := by
  intro fl
  induction fl with
  | nil => intro _ s hp; exact hp
  | cons f rest ih =>
    intro hP s hp
    rw [updateFolders]
    cases huf : updateFolder h srcDir cfgDir f s with
    | err s1 =>
      have := hP f (List.mem_cons_self f rest) s hp
      rw [huf] at this
      exact this
    | ok s1 =>
      have h1 := hP f (List.mem_cons_self f rest) s hp
      rw [huf] at h1
      exact ih (fun f2 h2 => hP f2 (List.mem_cons_of_mem f h2)) h1

/-- The two policy prompts at the start of update_install (lines 892-904). -/
def updatePrompts (s : St) : St :=
  let (ov, s1) := getUserChoice ["y", "n"] s
  let s1 := if ov = "y" then { s1 with autoOv := true } else s1
  let (de, s2) := getUserChoice ["y", "n"] s1
  if de = "y" then { s2 with autoDel := true } else s2

/-- The preview-colors tail of update_install (lines 947-955). -/
def updateTail (srcDir cfgDir : Path) (r : Res) : Res :=
  match r with
  | Res.err s3 => Res.err s3
  | Res.ok s3 =>
    if pathExists s3.fs (previewDest cfgDir) then Res.ok s3
    else
      match copyfile s3.fs (srcDir ++ ["exodefaults", "preview-colors.scss"])
          (previewDest cfgDir) with
      | none => Res.err s3
      | some fs4 =>
        Res.ok { s3 with
                 fs := fs4
                 log := s3.log ++ [Action.copy (previewDest cfgDir)] }

theorem UI_eq (h : String → String) (srcDir cfgDir : Path) (s : St) :
    updateInstall h srcDir cfgDir s =
      updateTail srcDir cfgDir
        (updateFolders h srcDir cfgDir coreFolders (updatePrompts s)) := rfl

theorem UP_shape (s : St) :
    (updatePrompts s).fs = s.fs ∧ (updatePrompts s).dryRun = s.dryRun ∧
      (updatePrompts s).log = s.log := by
  unfold updatePrompts getUserChoice
  dsimp only
  repeat' split
  all_goals exact ⟨rfl, rfl, rfl⟩

theorem UP_yy (fs : FS) (a b dr : Bool) (lg : List Action) :
    updatePrompts ⟨fs, ["y", "y"], a, b, dr, lg⟩
      = ⟨fs, [], true, true, dr, lg⟩ := rfl

/-- Protected-file invariance of the whole update_install run: a
destination file whose basename is protected keeps its exact content,
whether the run completes or aborts. -/
theorem update_prot_preserve (h : String → String) (srcDir cfgDir : Path)
    (s : St) (q : Path) (c0 : String)
    (hq : protectedFiles.contains (baseName q) = true)
    (hfile : fsGet s.fs q = some (Entry.file c0)) :
    fsGet ((updateInstall h srcDir cfgDir s).st).fs q
      = some (Entry.file c0) := by
  rw [UI_eq]
  have hfs := (UP_shape s).1
  have h1 : fsGet (updatePrompts s).fs q = some (Entry.file c0) := by
    rw [hfs]; exact hfile
  have h2 := @UFS_inv h srcDir cfgDir
    (fun st => fsGet st.fs q = some (Entry.file c0))
    coreFolders
    (fun f hf s2 hp => by
      dsimp only at hp ⊢
      have hfprot : protectedFiles.contains f = false := by
        have hf2 : f = "ignis" ∨ f = "matugen" := by
          simpa [coreFolders] using hf
        rcases hf2 with hf2 | hf2 <;> rw [hf2] <;> decide
      exact UF_prot hq hfprot hp)
    _ h1
  cases hfold : updateFolders h srcDir cfgDir coreFolders (updatePrompts s) with
  | err s3 =>
    rw [hfold] at h2
    unfold updateTail
    exact h2
  | ok s3 =>
    rw [hfold] at h2
    rw [Res.st] at h2
    unfold updateTail
    dsimp only
    by_cases hex : pathExists s3.fs (previewDest cfgDir) = true
    · rw [if_pos hex]
      exact h2
    · rw [if_neg hex]
      cases hcp : copyfile s3.fs (srcDir ++ ["exodefaults",
          "preview-colors.scss"]) (previewDest cfgDir) with
      | none => exact h2
      | some fs4 =>
        obtain ⟨c, _, hfs4, _⟩ := copyfile_some hcp
        have hne : q ≠ previewDest cfgDir := by
          intro he
          rw [he] at h2
          unfold pathExists at hex
          rw [h2] at hex
          simp at hex
        rw [Res.st]
        rw [hfs4, fsGet_fsSet, if_neg hne]
        exact h2

theorem UT_fs_cases (srcDir cfgDir : Path) (r : Res) :
    (updateTail srcDir cfgDir r).st.fs = r.st.fs ∨
    (pathExists r.st.fs (previewDest cfgDir) = false ∧
      isDir r.st.fs (previewDest cfgDir) = false ∧ ∃ c,
      (updateTail srcDir cfgDir r).st.fs
        = fsSet r.st.fs (previewDest cfgDir) (Entry.file c)) := by
  cases r with
  | err s3 => left; rfl
  | ok s3 =>
    unfold updateTail
    dsimp only
    by_cases hex : pathExists s3.fs (previewDest cfgDir) = true
    · rw [if_pos hex]
      left; rfl
    · rw [if_neg hex]
      cases hcp : copyfile s3.fs (srcDir ++ ["exodefaults",
          "preview-colors.scss"]) (previewDest cfgDir) with
      | none => left; rfl
      | some fs4 =>
        obtain ⟨c, _, hfs4, hnd⟩ := copyfile_some hcp
        right
        refine ⟨by simpa using hex, hnd, c, ?_⟩
        rw [Res.st, Res.st]
        exact hfs4

theorem UF_preserve_file {h : String → String} {srcDir cfgDir : Path}
    {f : String} {s : St} {q : Path} {c0 : String}
    (hq : isPre (cfgDir ++ [f]) q = false)
    (hfile : fsGet s.fs q = some (Entry.file c0)) :
    fsGet ((updateFolder h srcDir cfgDir f s).st).fs q
      = some (Entry.file c0) := by
  have hne : ∀ rel : Path, (cfgDir ++ [f]) ++ rel ≠ q := by
    intro rel he
    rw [← he, isPre_append] at hq
    cases hq
  rcases UF_cases h srcDir cfgDir f s with ⟨_, he⟩ | ⟨_, s1, hrp, he⟩
    | ⟨_, s1, hrp, he⟩
  · rw [he]; exact hfile
  · rw [he]
    have := @RP1_inv h (srcDir ++ [f]) (cfgDir ++ [f])
      (fun st => fsGet st.fs q = some (Entry.file c0))
      (fun rel s2 _ hp => by
        dsimp only at hp ⊢
        exact CC_preserve_file hp (fun h2 => hne rel h2.symm)
          (fun h2 => by
            have : isPre (cfgDir ++ [f]) q = true := by
              rw [h2]
              exact isPre_trans (isPre_append (cfgDir ++ [f]) rel)
                (isPre_append ((cfgDir ++ [f]) ++ rel) _)
            rw [this] at hq
            cases hq))
      (walkFiles s.fs (srcDir ++ [f])) s hfile
    rw [hrp] at this
    exact this
  · rw [he]
    have hp1 := @RP1_inv h (srcDir ++ [f]) (cfgDir ++ [f])
      (fun st => fsGet st.fs q = some (Entry.file c0))
      (fun rel s2 _ hp => by
        dsimp only at hp ⊢
        exact CC_preserve_file hp (fun h2 => hne rel h2.symm)
          (fun h2 => by
            have : isPre (cfgDir ++ [f]) q = true := by
              rw [h2]
              exact isPre_trans (isPre_append (cfgDir ++ [f]) rel)
                (isPre_append ((cfgDir ++ [f]) ++ rel) _)
            rw [this] at hq
            cases hq))
      (walkFiles s.fs (srcDir ++ [f])) s hfile
    rw [hrp] at hp1
    rw [Res.st] at hp1
    rw [Res.st]
    exact @RP2_inv (srcDir ++ [f]) (cfgDir ++ [f])
      (fun st => fsGet st.fs q = some (Entry.file c0)) _
      (fun rel _ s2 _ _ hp => by
        dsimp only at hp ⊢
        rw [PD_frame (fun h2 => hne rel h2.symm)]
        · exact hp) _ hp1

/-- Where compare_and_copy can change the filesystem: at or below its
destination path, or by creating a missing directory above it. -/
theorem CC_changed {h : String → String} {src dst : Path} {s : St} {q : Path}
    (hch : fsGet ((compareAndCopy h src dst s).st).fs q ≠ fsGet s.fs q) :
    isPre dst q = true ∨
      (isPre q dst = true ∧ q ≠ ([] : Path) ∧ fsGet s.fs q = none) := by
  rcases CC_fs_cases h src dst s with hc | hc
    | ⟨fs1, c, t, hfs1, _, ht, _, hres⟩ | ⟨c, t, _, ht, _, hres⟩
  · rw [hc] at hch
    exact absurd rfl hch
  · rw [hc] at hch
    obtain ⟨h1, _, h3, h4⟩ := mkdirsGo_changed hch
    rw [List.nil_append] at h4
    exact Or.inr ⟨isPre_q_dirName h4, h3, h1⟩
  · subst hfs1
    rw [hres, fsGet_fsSet] at hch
    by_cases hqt : q = t
    · left
      rcases ht with ⟨ht, _⟩ | ⟨ht, _⟩
      · rw [hqt, ht]
        exact isPre_refl dst
      · rw [hqt, ht]
        exact isPre_append dst _
    · rw [if_neg hqt] at hch
      obtain ⟨h1, _, h3, h4⟩ := mkdirsGo_changed hch
      rw [List.nil_append] at h4
      exact Or.inr ⟨isPre_q_dirName h4, h3, h1⟩
  · rw [hres, fsGet_fsSet] at hch
    by_cases hqt : q = t
    · left
      rcases ht with ⟨ht, _⟩ | ⟨ht, _⟩
      · rw [hqt, ht]
        exact isPre_refl dst
      · rw [hqt, ht]
        exact isPre_append dst _
    · rw [if_neg hqt] at hch
      exact absurd rfl hch

/-- The bundled invariant for reasoning outside the configuration
directory: ancestors of cfgDir stay directories, keys stay unique, and
the entry at an outside path q keeps its initial value. -/
def OutsideInv (cfgDir q : Path) (v : Option Entry) (st : St) : Prop :=
  (∀ r : Path, isPre r cfgDir = true → r ≠ ([] : Path) →
    isDir st.fs r = true) ∧ keysNodup st.fs ∧ fsGet st.fs q = v

theorem CC_outside {h : String → String} {src2 dst : Path} {cfgDir q : Path}
    {v : Option Entry} {s : St} (hq : isPre cfgDir q = false)
    (hdst : isPre cfgDir dst = true)
    (hinv : OutsideInv cfgDir q v s) :
    OutsideInv cfgDir q v ((compareAndCopy h src2 dst s).st) := by
  obtain ⟨hpc, hn, hv⟩ := hinv
  refine ⟨?_, CC_nodup hn, ?_⟩
  · intro r hr hrn
    unfold isDir
    rw [CC_dir_preserve (by
      have := hpc r hr hrn
      unfold isDir at this
      simpa using this)]
    simp
  · by_cases hch : fsGet ((compareAndCopy h src2 dst s).st).fs q = fsGet s.fs q
    · rw [hch]; exact hv
    · exfalso
      rcases CC_changed hch with hl | ⟨hr1, hr2, hr3⟩
      · have : isPre cfgDir q = true := isPre_trans hdst hl
        rw [this] at hq
        cases hq
      · rcases isPre_total hr1 hdst with hl2 | hr2b
        · have := hpc q hl2 hr2
          unfold isDir at this
          rw [hr3] at this
          simp at this
        · rw [hr2b] at hq
          cases hq

theorem PD_outside {p : Path} {cfgDir q : Path} {v : Option Entry} {s : St}
    (hq : isPre cfgDir q = false) (hp : isPre cfgDir p = true)
    (hpne : p ≠ cfgDir)
    (hinv : OutsideInv cfgDir q v s) :
    OutsideInv cfgDir q v (promptAndDelete p s) := by
  obtain ⟨hpc, hn, hv⟩ := hinv
  have hpq : p ≠ q := by
    intro he
    rw [he] at hp
    rw [hp] at hq
    cases hq
  refine ⟨?_, PD_nodup hn, ?_⟩
  · intro r hr hrn
    have hrp : r ≠ p := by
      intro he
      subst he
      exact hpne (eq_of_isPre_of_isPre hp hr).symm
    unfold isDir
    rw [PD_frame hrp]
    exact hpc r hr hrn
  · rw [PD_frame (fun he => hpq he.symm)]
    exact hv

theorem UF_outside {h : String → String} {srcDir cfgDir : Path} {f : String}
    {s : St} {q : Path} {v : Option Entry} (hq : isPre cfgDir q = false)
    (hinv : OutsideInv cfgDir q v s) :
    OutsideInv cfgDir q v ((updateFolder h srcDir cfgDir f s).st) := by
  have hdst : ∀ rel : Path, isPre cfgDir ((cfgDir ++ [f]) ++ rel) = true := by
    intro rel
    rw [List.append_assoc]
    exact isPre_append cfgDir ([f] ++ rel)
  have hpne : ∀ rel : Path, (cfgDir ++ [f]) ++ rel ≠ cfgDir := by
    intro rel he
    have := congrArg List.length he
    simp at this
  rcases UF_cases h srcDir cfgDir f s with ⟨_, he⟩ | ⟨_, s1, hrp, he⟩
    | ⟨_, s1, hrp, he⟩
  · rw [he]; exact hinv
  · rw [he]
    have := @RP1_inv h (srcDir ++ [f]) (cfgDir ++ [f])
      (OutsideInv cfgDir q v)
      (fun rel s2 _ hp => CC_outside hq (hdst rel) hp)
      (walkFiles s.fs (srcDir ++ [f])) s hinv
    rw [hrp] at this
    exact this
  · rw [he]
    have hp1 := @RP1_inv h (srcDir ++ [f]) (cfgDir ++ [f])
      (OutsideInv cfgDir q v)
      (fun rel s2 _ hp => CC_outside hq (hdst rel) hp)
      (walkFiles s.fs (srcDir ++ [f])) s hinv
    rw [hrp] at hp1
    rw [Res.st] at hp1
    rw [Res.st]
    exact @RP2_inv (srcDir ++ [f]) (cfgDir ++ [f])
      (OutsideInv cfgDir q v) _
      (fun rel _ s2 _ _ hp => PD_outside hq (hdst rel) (hpne rel) hp) _ hp1

/-- update_install changes nothing outside the configuration directory:
for any path not under cfgDir the entry is exactly what it was, whether
the run completes or aborts.  Requires unique keys and that every proper
ancestor of cfgDir is a directory (Python guarantees both). -/
theorem update_outside_frame (h : String → String) (srcDir cfgDir : Path)
    (s : St) (q : Path) (hn : keysNodup s.fs)
    (hpc : ∀ r : Path, isPre r cfgDir = true → r ≠ ([] : Path) →
      isDir s.fs r = true)
    (hq : isPre cfgDir q = false) :
    fsGet ((updateInstall h srcDir cfgDir s).st).fs q = fsGet s.fs q := by
  rw [UI_eq]
  have hfs := (UP_shape s).1
  have hinv0 : OutsideInv cfgDir q (fsGet s.fs q) (updatePrompts s) := by
    refine ⟨?_, ?_, ?_⟩
    · intro r hr hrn
      unfold isDir
      rw [hfs]
      exact (by
        have := hpc r hr hrn
        unfold isDir at this
        exact this)
    · unfold keysNodup
      rw [hfs]
      exact hn
    · rw [hfs]
  have h2 := @UFS_inv h srcDir cfgDir
    (OutsideInv cfgDir q (fsGet s.fs q)) coreFolders
    (fun f _ s2 hp => UF_outside hq hp) _ hinv0
  rcases UT_fs_cases srcDir cfgDir
      (updateFolders h srcDir cfgDir coreFolders (updatePrompts s)) with
    hc | ⟨_, _, c, hc⟩
  · rw [hc]
    exact h2.2.2
  · rw [hc, fsGet_fsSet, if_neg (by
      intro he
      rw [he] at hq
      unfold previewDest at hq
      rw [isPre_append] at hq
      cases hq)]
    exact h2.2.2

/-- update_install never turns a directory into anything else: every
directory of the starting state is still a directory afterwards. -/
theorem update_dir_preserve (h : String → String) (srcDir cfgDir : Path)
    (s : St) (q : Path) (hn : keysNodup s.fs)
    (hq : fsGet s.fs q = some Entry.dir) :
    fsGet ((updateInstall h srcDir cfgDir s).st).fs q = some Entry.dir := by
  rw [UI_eq]
  have hfs := (UP_shape s).1
  have h2 := @UFS_inv h srcDir cfgDir
    (fun st => keysNodup st.fs ∧ fsGet st.fs q = some Entry.dir)
    coreFolders
    (fun f _ s2 hp => ⟨UF_nodup hp.1, UF_dir_preserve hp.1 hp.2⟩)
    _ (⟨by unfold keysNodup; rw [hfs]; exact hn, by rw [hfs]; exact hq⟩)
  rcases UT_fs_cases srcDir cfgDir
      (updateFolders h srcDir cfgDir coreFolders (updatePrompts s)) with
    hc | ⟨_, hnd, c, hc⟩
  · rw [hc]
    exact h2.2
  · rw [hc, fsGet_fsSet, if_neg (by
      intro he
      rw [← he] at hnd
      unfold isDir at hnd
      rw [h2.2] at hnd
      simp at hnd)]
    exact h2.2

/-- update_install leaves every file outside the two core-folder
destinations byte-for-byte unchanged. -/
theorem update_file_preserve (h : String → String) (srcDir cfgDir : Path)
    (s : St) (q : Path) (c0 : String)
    (hout : ∀ f ∈ coreFolders, isPre (cfgDir ++ [f]) q = false)
    (hfile : fsGet s.fs q = some (Entry.file c0)) :
    fsGet ((updateInstall h srcDir cfgDir s).st).fs q
      = some (Entry.file c0) := by
  rw [UI_eq]
  have hfs := (UP_shape s).1
  have h2 := @UFS_inv h srcDir cfgDir
    (fun st => fsGet st.fs q = some (Entry.file c0))
    coreFolders
    (fun f hf s2 hp => UF_preserve_file (hout f hf) hp)
    _ (by
      dsimp only
      rw [hfs]
      exact hfile)
  rcases UT_fs_cases srcDir cfgDir
      (updateFolders h srcDir cfgDir coreFolders (updatePrompts s)) with
    hc | ⟨hnex, _, c, hc⟩
  · rw [hc]
    exact h2
  · rw [hc, fsGet_fsSet, if_neg (by
      intro he
      rw [← he] at hnex
      unfold pathExists at hnex
      rw [h2] at hnex
      simp at hnex)]
    exact h2

/-- A completed update_install run ends with the default
preview-colors.scss present at its destination. -/
theorem update_preview_exists (h : String → String) (srcDir cfgDir : Path)
    {s s' : St} (hok : updateInstall h srcDir cfgDir s = Res.ok s') :
    pathExists s'.fs (previewDest cfgDir) = true := by
  rw [UI_eq] at hok
  cases hfold : updateFolders h srcDir cfgDir coreFolders (updatePrompts s) with
  | err s3 =>
    rw [hfold] at hok
    cases hok
  | ok s3 =>
    rw [hfold] at hok
    unfold updateTail at hok
    dsimp only at hok
    by_cases hex : pathExists s3.fs (previewDest cfgDir) = true
    · rw [if_pos hex] at hok
      cases hok
      exact hex
    · rw [if_neg hex] at hok
      cases hcp : copyfile s3.fs (srcDir ++ ["exodefaults",
          "preview-colors.scss"]) (previewDest cfgDir) with
      | none => rw [hcp] at hok; cases hok
      | some fs4 =>
        rw [hcp] at hok
        cases hok
        obtain ⟨c, _, hfs4, _⟩ := copyfile_some hcp
        dsimp only
        rw [hfs4]
        unfold pathExists
        rw [fsGet_fsSet, if_pos rfl]
        rfl

/-! Idempotence infrastructure for update_install -/

theorem sibling_not_pre {x : Path} {f f' : String} (hff : f ≠ f')
    (rel : Path) :
    isPre ((x ++ [f]) ++ rel) (x ++ [f']) = false ∧
    isPre (x ++ [f']) ((x ++ [f]) ++ rel) = false := by
  rw [List.append_assoc]
  rw [isPre_cancel, isPre_cancel]
  constructor
  · cases rel <;> simp [isPre, hff]
  · simp [isPre, Ne.symm hff]

theorem baseName_drop {p : Path} {n : Nat} (h : p.drop n ≠ ([] : Path)) :
    baseName (p.drop n) = baseName p := by
  conv_rhs => rw [← List.take_append_drop n p]
  rw [baseName_append h]

theorem pathExists_fsSet_mono {fs : FS} {p q : Path} {e : Entry}
    (h : pathExists fs q = true) : pathExists (fsSet fs p e) q = true := by
  unfold pathExists at h ⊢
  rw [fsGet_fsSet]
  split
  · rfl
  · exact h

theorem walk_sublist_mem {fs fs' : FS} {root rel : Path}
    (hsub : List.Sublist fs' fs) (h : rel ∈ walkFiles fs' root) :
    rel ∈ walkFiles fs root := by
  rw [walkFiles_eq_filterMap] at h ⊢
  exact List.Sublist.mem h (List.Sublist.filterMap _ hsub)

/--
The state a folder is left in by a successful reconciliation, read as a
property of the filesystem alone: the destination folder is missing (and
the folder was skipped), or every walked non-protected source file has
its destination hash equal to its source hash and every walked
non-protected destination file has an existing source path.
-/
def GoodF (h : String → String) (srcDir cfgDir : Path) (f : String)
    (fs : FS) : Prop :=
  isDir fs (cfgDir ++ [f]) = false ∨
  ((∀ rel ∈ walkFiles fs (srcDir ++ [f]),
      protectedFiles.contains (baseName rel) = false →
      getFileHash h fs ((cfgDir ++ [f]) ++ rel) ≠ none ∧
      getFileHash h fs ((srcDir ++ [f]) ++ rel)
        = getFileHash h fs ((cfgDir ++ [f]) ++ rel)) ∧
   (∀ rel ∈ walkFiles fs (cfgDir ++ [f]),
      protectedFiles.contains (baseName rel) = false →
      pathExists fs ((srcDir ++ [f]) ++ rel) = true))

/-- On a Good folder state, the folder iteration is an exact no-op. -/
theorem UF_noop_of_good {h : String → String} {srcDir cfgDir : Path}
    {f : String} {t : St} (hg : GoodF h srcDir cfgDir f t.fs) :
    updateFolder h srcDir cfgDir f t = Res.ok t := by
  unfold updateFolder
  dsimp only
  cases hd : isDir t.fs (cfgDir ++ [f]) with
  | false => simp
  | true =>
    rw [if_pos rfl]
    rcases hg with hg | ⟨g1, g2⟩
    · rw [hd] at hg; cases hg
    · rw [RP1_noop g1]
      dsimp only
      rw [RP2_noop (fun rel hm => by
        by_cases hp : protectedFiles.contains (baseName rel) = true
        · exact Or.inl hp
        · exact Or.inr (g2 rel hm (by simpa using hp)))]

/-- A successful folder iteration leaves the folder Good. -/
theorem UF_good {h : String → String} {srcDir cfgDir : Path} {f : String}
    {s s' : St}
    (hd1 : isPre srcDir cfgDir = false) (hd2 : isPre cfgDir srcDir = false)
    (ha : s.autoOv = true) (had : s.autoDel = true) (hn : keysNodup s.fs)
    (hpair : (walkFiles s.fs (srcDir ++ [f])).Pairwise
      (fun a b => isPre a b = false ∧ isPre b a = false))
    (hnodir : ∀ rel ∈ walkFiles s.fs (srcDir ++ [f]),
      protectedFiles.contains (baseName rel) = false →
      fsGet s.fs ((cfgDir ++ [f]) ++ rel) ≠ some Entry.dir)
    (hok : updateFolder h srcDir cfgDir f s = Res.ok s') :
    GoodF h srcDir cfgDir f s'.fs := by
  have hsp : isPre (srcDir ++ [f]) (cfgDir ++ [f]) = false :=
    cross_not_pre hd1 hd2 [f] [f]
  have hdp : isPre (cfgDir ++ [f]) (srcDir ++ [f]) = false :=
    cross_not_pre hd2 hd1 [f] [f]
  rcases UF_cases h srcDir cfgDir f s with ⟨hdn, he⟩ | ⟨_, s1, hrp, he⟩
    | ⟨_, s1, hrp, he⟩
  · rw [he] at hok
    cases hok
    exact Or.inl hdn
  · rw [he] at hok
    cases hok
  · rw [he] at hok
    cases hok
    right
    -- notation: sp, dp, W (source walk), W2 (destination walk after phase 1)
    have hpost := @RP1_ok_post h (srcDir ++ [f])
      (cfgDir ++ [f]) (walkFiles s.fs (srcDir ++ [f])) s s1
      ha hsp hdp (by simp)
      (fun rel hm hp => by
        obtain ⟨c, hc, _⟩ := walk_mem_fsGet hn hm
        exact ⟨c, hc⟩)
      hnodir hpair hrp
    have hflags := @RP1_flags h (srcDir ++ [f])
      (cfgDir ++ [f]) (walkFiles s.fs (srcDir ++ [f])) s
    rw [hrp] at hflags
    rw [Res.st] at hflags
    have had1 : s1.autoDel = true := hflags.2.1.trans had
    have hwsp : walkFiles s1.fs (srcDir ++ [f])
        = walkFiles s.fs (srcDir ++ [f]) := by
      have := @RP1_walk h (srcDir ++ [f]) (cfgDir ++ [f])
        (walkFiles s.fs (srcDir ++ [f])) s (srcDir ++ [f])
        hsp hdp
      rw [hrp] at this
      exact this
    constructor
    · -- hashes agree for every walked source file
      intro rel hm hp
      have hm1 : rel ∈ walkFiles s.fs (srcDir ++ [f]) := by
        rw [← hwsp]
        have hw2 := @RP2_walk (srcDir ++ [f]) (cfgDir ++ [f])
          (walkFiles s1.fs (cfgDir ++ [f])) s1
          (srcDir ++ [f])
          (fun rel2 _ => by
            have := cross_not_pre hsp hdp ([] : Path) rel2
            rw [List.append_nil] at this
            exact this)
        rw [← hw2]
        exact hm
      obtain ⟨c, hc1, hc2⟩ := hpost rel hm1 hp
      have hfr1 : fsGet (runPhase2 (srcDir ++ [f]) (cfgDir ++ [f])
          (walkFiles s1.fs (cfgDir ++ [f])) s1).fs ((srcDir ++ [f]) ++ rel)
          = fsGet s1.fs ((srcDir ++ [f]) ++ rel) :=
        RP2_frame (fun rel2 _ => append_ne_of_roots hdp hsp rel2 rel)
      have hfr2 : fsGet (runPhase2 (srcDir ++ [f]) (cfgDir ++ [f])
          (walkFiles s1.fs (cfgDir ++ [f])) s1).fs ((cfgDir ++ [f]) ++ rel)
          = fsGet s1.fs ((cfgDir ++ [f]) ++ rel) :=
        RP2_keeps hsp hdp (by
          unfold pathExists
          rw [hc1]
          rfl)
      constructor
      · unfold getFileHash
        rw [hfr2]
        unfold getFileHash at hc2
        rw [hc2]
        simp
      · unfold getFileHash
        rw [hfr1, hfr2, hc1]
        unfold getFileHash at hc2
        rw [hc2]
    · -- every remaining walked destination file has a source
      intro rel hm hp
      have hm2 : rel ∈ walkFiles s1.fs (cfgDir ++ [f]) :=
        walk_sublist_mem (@RP2_sublist (srcDir ++ [f])
          (cfgDir ++ [f]) (walkFiles s1.fs (cfgDir ++ [f]))
          s1) hm
      rcases RP2_post hsp hdp had1 rel hm2 with hp2 | hex | hnex
      · rw [hp2] at hp; cases hp
      · exact hex
      · have := pathExists_of_walk_mem hm
        rw [this] at hnex
        cases hnex

/-- GoodF for one folder is unaffected by reconciling a different folder. -/
theorem GoodF_sibling {h : String → String} {srcDir cfgDir : Path}
    {f f' : String} {s : St}
    (hd1 : isPre srcDir cfgDir = false) (hd2 : isPre cfgDir srcDir = false)
    (hff : f ≠ f') (hg : GoodF h srcDir cfgDir f s.fs) :
    GoodF h srcDir cfgDir f ((updateFolder h srcDir cfgDir f' s).st).fs := by
  have hfr : ∀ rel : Path,
      fsGet ((updateFolder h srcDir cfgDir f' s).st).fs
          ((cfgDir ++ [f]) ++ rel)
        = fsGet s.fs ((cfgDir ++ [f]) ++ rel) := by
    intro rel
    exact UF_frame (sibling_not_pre hff rel).1 (sibling_not_pre hff rel).2
  have hfrs : ∀ rel : Path,
      fsGet ((updateFolder h srcDir cfgDir f' s).st).fs
          ((srcDir ++ [f]) ++ rel)
        = fsGet s.fs ((srcDir ++ [f]) ++ rel) := by
    intro rel
    apply UF_frame
    · rw [List.append_assoc]
      exact cross_not_pre hd1 hd2 ([f] ++ rel) [f']
    · rw [List.append_assoc]
      exact cross_not_pre hd2 hd1 [f'] ([f] ++ rel)
  have hwsp : walkFiles ((updateFolder h srcDir cfgDir f' s).st).fs
      (srcDir ++ [f]) = walkFiles s.fs (srcDir ++ [f]) := by
    apply UF_walk
    · exact cross_not_pre hd1 hd2 [f] [f']
    · exact cross_not_pre hd2 hd1 [f'] [f]
  have hwdp : walkFiles ((updateFolder h srcDir cfgDir f' s).st).fs
      (cfgDir ++ [f]) = walkFiles s.fs (cfgDir ++ [f]) := by
    apply UF_walk
    · have := sibling_not_pre (x := cfgDir) hff ([] : Path)
      rw [List.append_nil] at this
      exact this.1
    · have := sibling_not_pre (x := cfgDir) hff ([] : Path)
      rw [List.append_nil] at this
      exact this.2
  rcases hg with hg | ⟨g1, g2⟩
  · left
    unfold isDir
    have := hfr ([] : Path)
    rw [List.append_nil] at this
    rw [this]
    unfold isDir at hg
    exact hg
  · right
    constructor
    · intro rel hm hp
      rw [hwsp] at hm
      unfold getFileHash
      rw [hfr rel, hfrs rel]
      exact (g1 rel hm hp)
    · intro rel hm hp
      rw [hwdp] at hm
      unfold pathExists
      rw [hfrs rel]
      exact g2 rel hm hp

/-- GoodF survives the preview-colors tail write (the only path it adds
has a protected basename). -/
theorem GoodF_fsSet_preview {h : String → String} {srcDir cfgDir : Path}
    {f : String} {fs : FS} {c : String}
    (hd1 : isPre srcDir cfgDir = false) (hd2 : isPre cfgDir srcDir = false)
    (hg : GoodF h srcDir cfgDir f fs) :
    GoodF h srcDir cfgDir f
      (fsSet fs (previewDest cfgDir) (Entry.file c)) := by
  have hpvd : previewDest cfgDir
      = cfgDir ++ ["ignis", "styles", "preview-colors.scss"] := rfl
  have hbpv : protectedFiles.contains (baseName (previewDest cfgDir))
      = true := by
    rw [hpvd, baseName_append (by simp)]
    decide
  have hnsp : ∀ rel : Path, (srcDir ++ [f]) ++ rel ≠ previewDest cfgDir := by
    intro rel
    rw [hpvd, List.append_assoc]
    exact append_ne_of_roots hd1 hd2 ([f] ++ rel) _
  have hndp : ∀ rel : Path,
      protectedFiles.contains (baseName rel) = false → rel ≠ ([] : Path) →
      (cfgDir ++ [f]) ++ rel ≠ previewDest cfgDir := by
    intro rel hp hrn he
    have : baseName ((cfgDir ++ [f]) ++ rel)
        = baseName (previewDest cfgDir) := by rw [he]
    rw [baseName_append hrn] at this
    rw [this, hbpv] at hp
    cases hp
  have hwsp : walkFiles (fsSet fs (previewDest cfgDir) (Entry.file c))
      (srcDir ++ [f]) = walkFiles fs (srcDir ++ [f]) := by
    apply walkFiles_fsSet
    rw [hpvd]
    exact cross_not_pre hd1 hd2 [f] (["ignis", "styles",
      "preview-colors.scss"] : Path)
  have hdppv : (cfgDir ++ [f]) ≠ previewDest cfgDir := by
    rw [hpvd]
    intro he
    have := congrArg List.length he
    simp at this
  rcases hg with hg | ⟨g1, g2⟩
  · left
    unfold isDir
    rw [fsGet_fsSet, if_neg hdppv]
    unfold isDir at hg
    exact hg
  · right
    constructor
    · intro rel hm hp
      rw [hwsp] at hm
      have hrn : rel ≠ ([] : Path) := by
        obtain ⟨_, _, hrn, _⟩ := walkFiles_mem_entry hm
        exact hrn
      unfold getFileHash
      rw [fsGet_fsSet, if_neg (hndp rel hp hrn),
        fsGet_fsSet, if_neg (hnsp rel)]
      exact g1 rel hm hp
    · intro rel hm hp
      rcases mem_walkFiles_fsSet hm with hnew | hold
      · exfalso
        have hrn : rel ≠ ([] : Path) := by
          obtain ⟨_, _, hrn, _⟩ := walkFiles_mem_entry hm
          exact hrn
        have : baseName rel = baseName (previewDest cfgDir) := by
          rw [hnew]
          exact baseName_drop (by rw [← hnew]; exact hrn)
        rw [this, hbpv] at hp
        cases hp
      · exact pathExists_fsSet_mono (g2 rel hold hp)

theorem updateFolders_cons (h : String → String) (srcDir cfgDir : Path)
    (f : String) (rest : List String) (s : St) :
    updateFolders h srcDir cfgDir (f :: rest) s =
      match updateFolder h srcDir cfgDir f s with
      | Res.err s1 => Res.err s1
      | Res.ok s1 => updateFolders h srcDir cfgDir rest s1 := rfl

/--
C1 (amended): idempotence of update_install under automatic
confirmation, with both runs on the same source/config roots: a
successful first run leaves a state on which the second run consumes its
two y answers, performs no copy and no delete (its action log stays
empty), and returns the filesystem unchanged.  The hypotheses say the
two roots are prefix incomparable, the starting filesystem binds each
path once, the walked source files are pairwise prefix incomparable
(true of a real tree), and - the condition the counterexample shows is
needed - no walked source file faces a directory at its destination
path.
-/
theorem update_idempotent (h : String → String) (srcDir cfgDir : Path)
    (fs0 : FS) (dr : Bool) (s1 : St)
    (hd1 : isPre srcDir cfgDir = false) (hd2 : isPre cfgDir srcDir = false)
    (hn : keysNodup fs0)
    (hpair : ∀ f ∈ coreFolders, (walkFiles fs0 (srcDir ++ [f])).Pairwise
      (fun a b => isPre a b = false ∧ isPre b a = false))
    (hnodir : ∀ f ∈ coreFolders, ∀ rel ∈ walkFiles fs0 (srcDir ++ [f]),
      protectedFiles.contains (baseName rel) = false →
      fsGet fs0 ((cfgDir ++ [f]) ++ rel) ≠ some Entry.dir)
    (hrun1 : updateInstall h srcDir cfgDir
      ⟨fs0, ["y", "y"], false, false, dr, []⟩ = Res.ok s1) :
    updateInstall h srcDir cfgDir ⟨s1.fs, ["y", "y"], false, false, dr, []⟩
      = Res.ok ⟨s1.fs, [], true, true, dr, []⟩ := by
  have hpv : pathExists s1.fs (previewDest cfgDir) = true :=
    update_preview_exists h srcDir cfgDir hrun1
  have hcf : coreFolders = ["ignis", "matugen"] := rfl
  rw [UI_eq, UP_yy, hcf, updateFolders_cons] at hrun1
  cases hres1 : updateFolder h srcDir cfgDir "ignis"
      ⟨fs0, [], true, true, dr, []⟩ with
  | err u1 =>
    rw [hres1] at hrun1
    dsimp only at hrun1
    simp [updateTail] at hrun1
  | ok u1 =>
    rw [hres1] at hrun1
    dsimp only at hrun1
    rw [updateFolders_cons] at hrun1
    have hfl1 := @UF_flags_auto h srcDir cfgDir
      "ignis" ⟨fs0, [], true, true, dr, []⟩ rfl rfl
    rw [hres1] at hfl1
    dsimp only [Res.st] at hfl1
    have hn1 : keysNodup u1.fs := by
      have := @UF_nodup h srcDir cfgDir
        "ignis" ⟨fs0, [], true, true, dr, []⟩ hn
      rw [hres1] at this
      exact this
    have gI_u1 : GoodF h srcDir cfgDir "ignis" u1.fs :=
      UF_good hd1 hd2 rfl rfl hn (hpair "ignis" (by rw [hcf]; simp))
        (hnodir "ignis" (by rw [hcf]; simp)) hres1
    -- the Matugen hypotheses transported to u1
    have hwm : walkFiles u1.fs (srcDir ++ ["matugen"])
        = walkFiles fs0 (srcDir ++ ["matugen"]) := by
      have := @UF_walk h srcDir cfgDir
        "ignis" ⟨fs0, [], true, true, dr, []⟩
        (srcDir ++ ["matugen"])
        (cross_not_pre hd1 hd2 ["matugen"] ["ignis"])
        (cross_not_pre hd2 hd1 ["ignis"] ["matugen"])
      rw [hres1] at this
      exact this
    have hfrm : ∀ rel : Path,
        fsGet u1.fs ((cfgDir ++ ["matugen"]) ++ rel)
          = fsGet fs0 ((cfgDir ++ ["matugen"]) ++ rel) := by
      intro rel
      have := @UF_frame h srcDir cfgDir
        "ignis" ⟨fs0, [], true, true, dr, []⟩
        ((cfgDir ++ ["matugen"]) ++ rel)
        (sibling_not_pre (by decide) rel).1
        (sibling_not_pre (by decide) rel).2
      rw [hres1] at this
      exact this
    cases hres2 : updateFolder h srcDir cfgDir "matugen" u1 with
    | err u2 =>
      rw [hres2] at hrun1
      dsimp only at hrun1
      simp [updateTail] at hrun1
    | ok u2 =>
      rw [hres2] at hrun1
      dsimp only at hrun1
      rw [show updateFolders h srcDir cfgDir [] u2 = Res.ok u2 from rfl]
        at hrun1
      have gM_u2 : GoodF h srcDir cfgDir "matugen" u2.fs :=
        UF_good hd1 hd2 hfl1.2.1 hfl1.2.2.1 hn1
          (by
            rw [hwm]
            exact hpair "matugen" (by rw [hcf]; simp))
          (by
            intro rel hm hp
            rw [hwm] at hm
            rw [hfrm rel]
            exact hnodir "matugen" (by rw [hcf]; simp) rel hm hp)
          hres2
      have gI_u2 : GoodF h srcDir cfgDir "ignis" u2.fs := by
        have := @GoodF_sibling h srcDir cfgDir "ignis" "matugen" u1
          hd1 hd2 (by decide) gI_u1
        rw [hres2] at this
        exact this
      -- the tail of run 1
      unfold updateTail at hrun1
      dsimp only at hrun1
      have hmain : GoodF h srcDir cfgDir "ignis" s1.fs ∧
          GoodF h srcDir cfgDir "matugen" s1.fs := by
        by_cases hex : pathExists u2.fs (previewDest cfgDir) = true
        · rw [if_pos hex] at hrun1
          cases hrun1
          exact ⟨gI_u2, gM_u2⟩
        · rw [if_neg hex] at hrun1
          cases hcp : copyfile u2.fs (srcDir ++ ["exodefaults",
              "preview-colors.scss"]) (previewDest cfgDir) with
          | none => rw [hcp] at hrun1; cases hrun1
          | some fs4 =>
            rw [hcp] at hrun1
            cases hrun1
            obtain ⟨c, _, hfs4, _⟩ := copyfile_some hcp
            dsimp only
            rw [hfs4]
            exact ⟨GoodF_fsSet_preview hd1 hd2 gI_u2,
              GoodF_fsSet_preview hd1 hd2 gM_u2⟩
      -- run 2 is an exact no-op
      rw [UI_eq, UP_yy, hcf, updateFolders_cons]
      rw [UF_noop_of_good (t := ⟨s1.fs, [], true, true, dr, []⟩) hmain.1]
      dsimp only
      rw [updateFolders_cons]
      rw [UF_noop_of_good (t := ⟨s1.fs, [], true, true, dr, []⟩) hmain.2]
      dsimp only
      unfold updateFolders updateTail
      dsimp only
      rw [if_pos hpv]


/-- The wallpaper step of final_setup (lines 781-793), on the state after the
wallpaper directory was ensured. -/
def finalSetupStep2 (srcDir cfgDir : Path) (s1 : St) : Res :=
  if pathExists s1.fs (wallpaperDest s1.dryRun cfgDir) then Res.ok s1
  else
    match copyfile s1.fs (srcDir ++ ["exodefaults", "default_wallpaper.png"])
        (wallpaperDest s1.dryRun cfgDir) with
    | none => Res.err s1
    | some fs2 => Res.ok { s1 with fs := fs2 }

/-- The remainder of final_setup after the wallpaper step (lines 795-831). -/
def finalSetupTail (argv0 srcDir cfgDir : Path) : Res → Res
  | Res.err s2 => Res.err s2
  | Res.ok s2 =>
    match finalSetupUser cfgDir s2 with
    | Res.err s3 => Res.err s3
    | Res.ok s3 =>
      match finalSetupPreview srcDir cfgDir s3 with
      | Res.err s4 => Res.err s4
      | Res.ok s4 =>
        if pathExists s4.fs exoCmdPath then Res.ok s4
        else Res.ok (installAsCommand argv0 s4)

theorem FS_eq (argv0 srcDir cfgDir : Path) (s : St) :
    finalSetup argv0 srcDir cfgDir s =
      (match mkdirs s.fs (wallpaperDir s.dryRun cfgDir) with
       | (fs1, false) => Res.err { s with fs := fs1 }
       | (fs1, true) => finalSetupTail argv0 srcDir cfgDir
           (finalSetupStep2 srcDir cfgDir { s with fs := fs1 })) := by
  unfold finalSetup finalSetupTail finalSetupStep2
  rfl

theorem mkdirsGo_exists_mono {fs : FS} {q : Path}
    (h : pathExists fs q = true) (pre : Path) (l : List String) :
    pathExists (mkdirsGo fs pre l).1 q = true := by
  unfold pathExists at h ⊢
  cases hg : fsGet fs q with
  | none => rw [hg] at h; cases h
  | some e => rw [mkdirsGo_preserve hg pre l]; rfl

theorem fsGet_none_of_not_exists {fs : FS} {q : Path}
    (h : ¬ pathExists fs q = true) : fsGet fs q = none := by
  unfold pathExists at h
  cases hg : fsGet fs q with
  | none => rfl
  | some e => rw [hg] at h; exact absurd rfl h

/-! finalSetupStep2: establishes the wallpaper, touches nothing else. -/

theorem fsStep2_facts {srcDir cfgDir : Path} {s1 s2 : St}
    (hok : finalSetupStep2 srcDir cfgDir s1 = Res.ok s2) :
    pathExists s2.fs (wallpaperDest s1.dryRun cfgDir) = true ∧
    (∀ q, pathExists s1.fs q = true → pathExists s2.fs q = true) ∧
    (∀ q e, fsGet s1.fs q = some e → fsGet s2.fs q = some e) ∧
    s2.dryRun = s1.dryRun := by
  unfold finalSetupStep2 at hok
  by_cases hex : pathExists s1.fs (wallpaperDest s1.dryRun cfgDir) = true
  · rw [if_pos hex] at hok
    cases hok
    exact ⟨hex, fun q h => h, fun q e h => h, rfl⟩
  · rw [if_neg hex] at hok
    cases hcp : copyfile s1.fs (srcDir ++ ["exodefaults",
        "default_wallpaper.png"]) (wallpaperDest s1.dryRun cfgDir) with
    | none => rw [hcp] at hok; cases hok
    | some fs2 =>
      rw [hcp] at hok
      cases hok
      obtain ⟨c, _, hfs2, _⟩ := copyfile_some hcp
      refine ⟨?_, ?_, ?_, rfl⟩
      · show pathExists fs2 _ = true
        rw [hfs2]
        unfold pathExists
        rw [fsGet_fsSet, if_pos rfl]
        rfl
      · intro q h
        show pathExists fs2 q = true
        rw [hfs2]
        exact pathExists_fsSet_mono h
      · intro q e h
        show fsGet fs2 q = some e
        rw [hfs2, fsGet_fsSet, if_neg ?_]
        · exact h
        · intro he
          rw [he] at h
          rw [fsGet_none_of_not_exists hex] at h
          cases h

/-! finalSetupUser: establishes user_settings.json, touches nothing else. -/

theorem fsu_facts {cfgDir : Path} {s2 s3 : St}
    (hok : finalSetupUser cfgDir s2 = Res.ok s3) :
    pathExists s3.fs (userSettingsPath cfgDir) = true ∧
    (∀ q, pathExists s2.fs q = true → pathExists s3.fs q = true) ∧
    (∀ q e, fsGet s2.fs q = some e → fsGet s3.fs q = some e) := by
  unfold finalSetupUser at hok
  by_cases hex : pathExists s2.fs (userSettingsPath cfgDir) = true
  · rw [if_pos hex] at hok
    cases hok
    exact ⟨hex, fun q h => h, fun q e h => h⟩
  · rw [if_neg hex] at hok
    unfold mkdirs at hok
    cases hmk : mkdirsGo s2.fs [] (cfgDir ++ ["ignis"]) with
    | mk fs1 ok =>
      rw [hmk] at hok
      cases ok with
      | false => cases hok
      | true =>
        dsimp only at hok
        cases hw : writeFile fs1 (userSettingsPath cfgDir) "\x7b\x7d" with
        | none => rw [hw] at hok; cases hok
        | some fs2 =>
          rw [hw] at hok
          cases hok
          obtain ⟨hfs2, _⟩ := writeFile_some hw
          have hpre : ∀ q e, fsGet s2.fs q = some e → fsGet fs1 q = some e := by
            intro q e h
            have := mkdirsGo_preserve h [] (cfgDir ++ ["ignis"])
            rw [hmk] at this
            exact this
          refine ⟨?_, ?_, ?_⟩
          · show pathExists fs2 _ = true
            rw [hfs2]
            unfold pathExists
            rw [fsGet_fsSet, if_pos rfl]
            rfl
          · intro q h
            show pathExists fs2 q = true
            rw [hfs2]
            apply pathExists_fsSet_mono
            have hm := mkdirsGo_exists_mono h [] (cfgDir ++ ["ignis"])
            rw [hmk] at hm
            exact hm
          · intro q e h
            show fsGet fs2 q = some e
            rw [hfs2, fsGet_fsSet, if_neg ?_]
            · exact hpre q e h
            · intro he
              rw [he] at h
              rw [fsGet_none_of_not_exists hex] at h
              cases h

/-! finalSetupPreview: establishes preview-colors.scss, touches nothing else. -/

theorem fsp_facts {srcDir cfgDir : Path} {s3 s4 : St}
    (hok : finalSetupPreview srcDir cfgDir s3 = Res.ok s4) :
    pathExists s4.fs (previewDest cfgDir) = true ∧
    (∀ q, pathExists s3.fs q = true → pathExists s4.fs q = true) ∧
    (∀ q e, fsGet s3.fs q = some e → fsGet s4.fs q = some e) := by
  unfold finalSetupPreview at hok
  by_cases hex : pathExists s3.fs (previewDest cfgDir) = true
  · rw [if_pos hex] at hok
    cases hok
    exact ⟨hex, fun q h => h, fun q e h => h⟩
  · rw [if_neg hex] at hok
    cases hcp : copyfile s3.fs (srcDir ++ ["exodefaults",
        "preview-colors.scss"]) (previewDest cfgDir) with
    | none => rw [hcp] at hok; cases hok
    | some fs2 =>
      rw [hcp] at hok
      cases hok
      obtain ⟨c, _, hfs2, _⟩ := copyfile_some hcp
      refine ⟨?_, ?_, ?_⟩
      · show pathExists fs2 _ = true
        rw [hfs2]
        unfold pathExists
        rw [fsGet_fsSet, if_pos rfl]
        rfl
      · intro q h
        show pathExists fs2 q = true
        rw [hfs2]
        exact pathExists_fsSet_mono h
      · intro q e h
        show fsGet fs2 q = some e
        rw [hfs2, fsGet_fsSet, if_neg ?_]
        · exact h
        · intro he
          rw [he] at h
          rw [fsGet_none_of_not_exists hex] at h
          cases h

/-! install_as_command when the command is not yet installed: it can only
create directories on the /usr/local/bin chain and write the command file
itself, so every existing binding survives. -/

theorem iacCp_preserve_of_absent {argv0 : Path} {s : St} {q : Path} {e : Entry}
    (hcmd : fsGet s.fs exoCmdPath = none)
    (hget : fsGet s.fs q = some e) :
    fsGet (installAsCommandCp argv0 s).fs q = some e := by
  unfold installAsCommandCp
  cases hdr : s.dryRun with
  | true => simp only [hdr, if_true]; exact hget
  | false =>
    simp only [hdr, Bool.false_eq_true, if_false]
    cases hcp : copy2 s.fs argv0 exoCmdPath with
    | none => exact hget
    | some fs1 =>
      dsimp only
      obtain ⟨c, t, _, ht, hfs1, _⟩ := copy2_some hcp
      rw [hfs1, fsGet_fsSet, if_neg ?_]
      · exact hget
      · rcases ht with ⟨rfl, _⟩ | ⟨_, hd⟩
        · intro he
          rw [he] at hget
          rw [hcmd] at hget
          cases hget
        · unfold isDir at hd
          rw [hcmd] at hd
          simp at hd

theorem iacCp_exists {argv0 : Path} {s : St} {q : Path}
    (h : pathExists s.fs q = true) :
    pathExists (installAsCommandCp argv0 s).fs q = true := by
  unfold installAsCommandCp
  cases hdr : s.dryRun with
  | true => simp only [hdr, if_true]; exact h
  | false =>
    simp only [hdr, Bool.false_eq_true, if_false]
    cases hcp : copy2 s.fs argv0 exoCmdPath with
    | none => exact h
    | some fs1 =>
      dsimp only
      obtain ⟨c, t, _, _, hfs1, _⟩ := copy2_some hcp
      rw [hfs1]
      exact pathExists_fsSet_mono h

theorem iac_preserve_of_absent {argv0 : Path} {s : St} {q : Path} {e : Entry}
    (hcmd : pathExists s.fs exoCmdPath = false)
    (hget : fsGet s.fs q = some e) :
    fsGet (installAsCommand argv0 s).fs q = some e := by
  have hnone : fsGet s.fs exoCmdPath = none :=
    fsGet_none_of_not_exists (by rw [hcmd]; exact Bool.false_ne_true)
  unfold installAsCommand
  by_cases hex : pathExists s.fs usrLocalBin = true
  · rw [if_pos hex]
    exact iacCp_preserve_of_absent hnone hget
  · rw [if_neg hex]
    unfold mkdirs
    cases hmk : mkdirsGo s.fs [] usrLocalBin with
    | mk fs1 ok =>
      have hp1 : fsGet fs1 q = some e := by
        have := mkdirsGo_preserve hget [] usrLocalBin
        rw [hmk] at this
        exact this
      have hc1 : fsGet fs1 exoCmdPath = none := by
        by_cases hch : fsGet fs1 exoCmdPath = fsGet s.fs exoCmdPath
        · rw [hch]; exact hnone
        · exfalso
          have := mkdirsGo_changed (q := exoCmdPath)
            (by rw [hmk]; exact hch)
          have h4 := this.2.2.2
          simp only [List.nil_append] at h4
          exact absurd h4 (by decide)
      cases ok with
      | false => exact hp1
      | true =>
        dsimp only
        exact iacCp_preserve_of_absent (s := { s with fs := fs1 }) hc1 hp1

theorem iac_exists {argv0 : Path} {s : St} {q : Path}
    (h : pathExists s.fs q = true) :
    pathExists (installAsCommand argv0 s).fs q = true := by
  unfold installAsCommand
  by_cases hex : pathExists s.fs usrLocalBin = true
  · rw [if_pos hex]
    exact iacCp_exists h
  · rw [if_neg hex]
    unfold mkdirs
    cases hmk : mkdirsGo s.fs [] usrLocalBin with
    | mk fs1 ok =>
      have hp1 : pathExists fs1 q = true := by
        have := mkdirsGo_exists_mono h [] usrLocalBin
        rw [hmk] at this
        exact this
      cases ok with
      | false => exact hp1
      | true =>
        dsimp only
        exact iacCp_exists (s := { s with fs := fs1 }) hp1

/-! The tail of final_setup after a successful wallpaper step. -/

theorem fsTail_facts {argv0 srcDir cfgDir : Path} {s2 s' : St}
    (hok : finalSetupTail argv0 srcDir cfgDir (Res.ok s2) = Res.ok s') :
    pathExists s'.fs (userSettingsPath cfgDir) = true ∧
    pathExists s'.fs (previewDest cfgDir) = true ∧
    (∀ q, pathExists s2.fs q = true → pathExists s'.fs q = true) ∧
    (∀ q e, fsGet s2.fs q = some e → fsGet s'.fs q = some e) := by
  unfold finalSetupTail at hok
  dsimp only at hok
  cases hfsu : finalSetupUser cfgDir s2 with
  | err s3 => rw [hfsu] at hok; cases hok
  | ok s3 =>
    rw [hfsu] at hok
    dsimp only at hok
    obtain ⟨hu1, hu2, hu3⟩ := fsu_facts hfsu
    cases hfsp : finalSetupPreview srcDir cfgDir s3 with
    | err s4 => rw [hfsp] at hok; cases hok
    | ok s4 =>
      rw [hfsp] at hok
      dsimp only at hok
      obtain ⟨hp1, hp2, hp3⟩ := fsp_facts hfsp
      by_cases hcmd : pathExists s4.fs exoCmdPath = true
      · rw [if_pos hcmd] at hok
        cases hok
        exact ⟨hp2 _ hu1, hp1, fun q h => hp2 q (hu2 q h),
          fun q e h => hp3 q e (hu3 q e h)⟩
      · rw [if_neg hcmd] at hok
        cases hok
        have hcf : pathExists s4.fs exoCmdPath = false := by
          cases hpe : pathExists s4.fs exoCmdPath with
          | true => exact absurd hpe hcmd
          | false => rfl
        exact ⟨iac_exists (hp2 _ hu1), iac_exists hp1,
          fun q h => iac_exists (hp2 q (hu2 q h)),
          fun q e h => iac_preserve_of_absent hcf (hp3 q e (hu3 q e h))⟩

/-- final_setup establishes the three derived artifacts and preserves every
binding the starting filesystem already had. -/
theorem finalSetup_artifacts {argv0 srcDir cfgDir : Path} {s s' : St}
    (hok : finalSetup argv0 srcDir cfgDir s = Res.ok s') :
    (pathExists s'.fs (wallpaperDest s.dryRun cfgDir) = true ∧
     pathExists s'.fs (userSettingsPath cfgDir) = true ∧
     pathExists s'.fs (previewDest cfgDir) = true) ∧
    (∀ q e, fsGet s.fs q = some e → fsGet s'.fs q = some e) := by
  rw [FS_eq] at hok
  unfold mkdirs at hok
  cases hmk : mkdirsGo s.fs [] (wallpaperDir s.dryRun cfgDir) with
  | mk fs1 ok =>
    rw [hmk] at hok
    cases ok with
    | false => cases hok
    | true =>
      dsimp only at hok
      cases hs2 : finalSetupStep2 srcDir cfgDir { s with fs := fs1 } with
      | err s2 => rw [hs2] at hok; cases hok
      | ok s2 =>
        rw [hs2] at hok
        obtain ⟨hw1, hw2, hw3, _⟩ := fsStep2_facts hs2
        obtain ⟨ht1, ht2, ht3, ht4⟩ := fsTail_facts hok
        have hpre1 : ∀ q e, fsGet s.fs q = some e → fsGet fs1 q = some e := by
          intro q e h
          have := mkdirsGo_preserve h [] (wallpaperDir s.dryRun cfgDir)
          rw [hmk] at this
          exact this
        refine ⟨⟨ht3 _ hw1, ht1, ht2⟩, ?_⟩
        intro q e h
        exact ht4 q e (hw3 q e (hpre1 q e h))

/-- Under dry-run every destructive branch of uninstall_exo is skipped,
so the filesystem comes back untouched. -/
theorem uninstall_dryrun_fs (cfgDir : Path) (s : St) (hdr : s.dryRun = true) :
    (uninstallExo cfgDir s).fs = s.fs := by
  unfold uninstallExo getUserChoice
  dsimp only
  rw [hdr]
  simp only [eq_self_iff_true, if_true, Bool.not_true, Bool.and_false,
    Bool.false_eq_true, if_false]
  repeat' split
  all_goals rfl

/-- An n answer at either confirmation prompt of uninstall_exo leaves the
filesystem unchanged. -/
theorem uninstall_n_fs (cfgDir : Path) (s : St) (rest : List String)
    (hans : s.answers = "n" :: rest ∨ s.answers = "y" :: "n" :: rest) :
    (uninstallExo cfgDir s).fs = s.fs := by
  unfold uninstallExo getUserChoice
  dsimp only
  rcases hans with hans | hans
  · rw [hans]
    simp [popChoice]
  · rw [hans]
    simp only [popChoice]
    simp
    split
    · rfl
    · rfl


theorem isPre_closure_of_takes {fs : FS} {cfgDir : Path}
    (hpc : ∀ n, n < cfgDir.length → isDir fs (cfgDir.take (n + 1)) = true) :
    ∀ r : Path, isPre r cfgDir = true → r ≠ ([] : Path) → isDir fs r = true := by
  intro r hr hrne
  obtain ⟨t, ht⟩ := (isPre_iff r cfgDir).1 hr
  have hlen : r.length ≤ cfgDir.length := isPre_length hr
  have hrt : r = cfgDir.take r.length := by
    rw [ht]
    exact (List.take_left r t).symm
  have hpos : 0 < r.length := List.length_pos.2 hrne
  have hlt : r.length - 1 < cfgDir.length := by omega
  have := hpc (r.length - 1) hlt
  rwa [show r.length - 1 + 1 = r.length by omega, ← hrt] at this

/-- A mock digest for the concrete runs below. -/
def hashFn : String → String := fun c => "#" ++ c

-- concrete inputs (validated shapes)
def fs1 : FS :=
  [(["c"], Entry.dir),
   (["c", "ignis"], Entry.dir),
   (["c", "ignis", "styles"], Entry.dir),
   (["c", "ignis", "styles", "preview-colors.scss"], Entry.file "P"),
   (["c", "ignis", "a"], Entry.dir),
   (["s", "ignis", "a"], Entry.file "A"),
   (["s", "exodefaults", "preview-colors.scss"], Entry.file "P")]

def fs0W : FS :=
  [(["c", "ignis"], Entry.dir),
   (["c", "matugen"], Entry.dir),
   (["c", "ignis", "styles"], Entry.dir),
   (["c", "ignis", "styles", "preview-colors.scss"], Entry.file "P"),
   (["s", "ignis", "a"], Entry.file "A")]

def s1W : St :=
  (updateInstall hashFn ["s"] ["c"]
    ⟨fs0W, ["y", "y"], false, false, false, []⟩).st

theorem C1_counterexample :
    updateInstall hashFn ["s"] ["c"]
        { fs := ((updateInstall hashFn ["s"] ["c"]
            { fs := fs1
              answers := []
              autoOv := true
              autoDel := true
              dryRun := false
              log := [] }).st).fs
          answers := []
          autoOv := true
          autoDel := true
          dryRun := false
          log := [] }
      = Res.ok { fs := fs1
                 answers := []
                 autoOv := true
                 autoDel := true
                 dryRun := false
                 log := [Action.copy ["c", "ignis", "a"],
                         Action.del ["c", "ignis", "a", "a"]] } := by
  decide

theorem C1_witness :
    updateInstall hashFn ["s"] ["c"]
        ⟨s1W.fs, ["y", "y"], false, false, false, []⟩
      = Res.ok ⟨s1W.fs, [], true, true, false, []⟩ :=
  update_idempotent hashFn ["s"] ["c"] fs0W false s1W (by decide) (by decide)
    (by unfold keysNodup; decide) (by decide) (by decide) (by decide)

/-- C2 (amended): an existing protected file is never overwritten or
deleted by an Update run - its destination bytes survive the run exactly,
whatever the source holds.  (An absent preview-colors.scss is however
created by the final copy step; see the counterexample.) -/
theorem C2_protected_preserved (h : String → String) (srcDir cfgDir : Path)
    (s : St) (q : Path) (c0 : String)
    (hq : protectedFiles.contains (baseName q) = true)
    (hfile : fsGet s.fs q = some (Entry.file c0)) :
    fsGet ((updateInstall h srcDir cfgDir s).st).fs q
      = some (Entry.file c0) :=
  update_prot_preserve h srcDir cfgDir s q c0 hq hfile

def fs2 : FS :=
  [(["c", "ignis"], Entry.dir),
   (["c", "ignis", "styles"], Entry.dir),
   (["s", "exodefaults", "preview-colors.scss"], Entry.file "P")]

theorem C2_counterexample :
    pathExists fs2 (previewDest ["c"]) = false ∧
    protectedFiles.contains (baseName (previewDest ["c"])) = true ∧
    pathExists ((updateInstall hashFn ["s"] ["c"]
        ⟨fs2, [], true, true, false, []⟩).st).fs (previewDest ["c"])
      = true := by
  decide

def fsW2 : FS :=
  [(["c", "ignis"], Entry.dir),
   (["c", "ignis", "user_settings.json"], Entry.file "U"),
   (["c", "ignis", "styles"], Entry.dir),
   (["c", "ignis", "styles", "preview-colors.scss"], Entry.file "P")]

theorem C2_witness :
    protectedFiles.contains
        (baseName ["c", "ignis", "user_settings.json"]) = true ∧
    fsGet fsW2 ["c", "ignis", "user_settings.json"]
      = some (Entry.file "U") ∧
    fsGet ((updateInstall hashFn ["s"] ["c"]
        ⟨fsW2, [], true, true, false, []⟩).st).fs
        ["c", "ignis", "user_settings.json"]
      = some (Entry.file "U") :=
  ⟨by decide, by decide,
   C2_protected_preserved hashFn ["s"] ["c"]
     ⟨fsW2, [], true, true, false, []⟩
     ["c", "ignis", "user_settings.json"] "U" (by decide) (by decide)⟩

/-- C3 (amended): dry-run isolation holds for Update and Uninstall but
not for Full Install.  Update changes nothing outside the configuration
root (dry-run or not), and a dry-run Uninstall leaves the filesystem
exactly as it was; Full Install's install_as_command step creates
/usr/local/bin with a bare os.makedirs even in dry-run (counterexample). -/
theorem C3_dry_run_frame (h : String → String) (srcDir cfgDir : Path)
    (s : St) (q : Path) (s2 : St)
    (hn : keysNodup s.fs)
    (hpc : ∀ n, n < cfgDir.length → isDir s.fs (cfgDir.take (n + 1)) = true)
    (hq : isPre cfgDir q = false)
    (hdr : s2.dryRun = true) :
    fsGet ((updateInstall h srcDir cfgDir s).st).fs q = fsGet s.fs q ∧
    (uninstallExo cfgDir s2).fs = s2.fs :=
  ⟨update_outside_frame h srcDir cfgDir s q hn
     (isPre_closure_of_takes hpc) hq,
   uninstall_dryrun_fs cfgDir s2 hdr⟩

def env3 : Env :=
  { distro := none
    paruPresent := false
    yayPresent := false
    pacmanOk := true
    cloneOk := true
    makepkgOk := true
    yayAfter := true
    niriPresent := false
    hyprPresent := false
    pkgOk := true
    argv0 := ["exoinstall.py"] }

def fsC3 : FS :=
  [(["usr"], Entry.dir),
   (["usr", "local"], Entry.dir),
   (["s", "ignis"], Entry.dir),
   (["s", "ignis", "styles"], Entry.dir),
   (["s", "exodefaults", "config.kdl"], Entry.file "K"),
   (["s", "exodefaults", "default_wallpaper.png"], Entry.file "W"),
   (["s", "exodefaults", "preview-colors.scss"], Entry.file "P")]

theorem C3_counterexample :
    (⟨fsC3, ["1"], false, false, true, []⟩ : St).dryRun = true ∧
    fsGet fsC3 usrLocalBin = none ∧
    isPre ["c"] usrLocalBin = false ∧
    fsGet ((fullInstall env3 ["s"] ["c"]
        ⟨fsC3, ["1"], false, false, true, []⟩).st).fs usrLocalBin
      = some Entry.dir := by
  decide

def fsW3 : FS := [(["c"], Entry.dir), (["c", "x"], Entry.file "F")]

def fsW3b : FS := [(["c"], Entry.dir)]

theorem C3_witness :
    fsGet ((updateInstall hashFn ["s"] ["c"]
        ⟨fsW3, [], true, true, true, []⟩).st).fs ["z"]
      = fsGet fsW3 ["z"] ∧
    (uninstallExo ["c"] ⟨fsW3b, ["y", "y", "y"], false, false, true, []⟩).fs
      = fsW3b :=
  C3_dry_run_frame hashFn ["s"] ["c"] ⟨fsW3, [], true, true, true, []⟩ ["z"]
    ⟨fsW3b, ["y", "y", "y"], false, false, true, []⟩
    (by unfold keysNodup; decide) (by decide) (by decide) (by decide)

/-- C4 (amended): a non-protected path that is a walked source file, or a
walked destination file whose source path does not exist at all, gets
exactly one class.  A walked destination file whose source path exists
but is not a file (a source directory of the same name) gets no class:
it is neither compared nor orphaned (counterexample). -/
theorem C4_classification (h : String → String) (fs : FS) (sp dp rel : Path)
    (hprot : protectedFiles.contains (baseName rel) = false)
    (hvis : isWalkedFile fs sp rel = true ∨
      (isWalkedFile fs dp rel = true ∧ pathExists fs (sp ++ rel) = false)) :
    (updateKind h fs sp dp rel).isSome = true := by
  unfold updateKind
  rw [hprot]
  simp only [Bool.false_eq_true, if_false]
  by_cases hs : isWalkedFile fs sp rel = true
  · rw [if_pos hs]
    rfl
  · rw [if_neg hs]
    rcases hvis with hv | ⟨hd, hne⟩
    · exact absurd hv hs
    · rw [if_pos hd, if_neg (fun he => by rw [hne] at he; cases he)]
      rfl

def fs4 : FS :=
  [(["s", "ignis", "a"], Entry.dir),
   (["s", "ignis", "a", "inner"], Entry.file "I"),
   (["c", "ignis", "a"], Entry.file "X")]

theorem C4_counterexample :
    isWalkedFile fs4 ["c", "ignis"] ["a"] = true ∧
    protectedFiles.contains (baseName ["a"]) = false ∧
    updateKind hashFn fs4 ["s", "ignis"] ["c", "ignis"] ["a"] = none := by
  decide

theorem C4_witness :
    protectedFiles.contains (baseName ["a", "inner"]) = false ∧
    isWalkedFile fs4 ["s", "ignis"] ["a", "inner"] = true ∧
    (updateKind hashFn fs4 ["s", "ignis"] ["c", "ignis"]
      ["a", "inner"]).isSome = true :=
  ⟨by decide, by decide,
   C4_classification hashFn fs4 ["s", "ignis"] ["c", "ignis"] ["a", "inner"]
     (by decide) (Or.inl (by decide))⟩

/-- C5 (amended): the fingerprint returns None exactly when the path is
not a readable regular file, but compare_and_copy does not treat a None
source as absent: with a present, differing destination the pair is
classified as a mismatch and the copy is attempted, which raises. -/
theorem C5_notfound_semantics (h : String → String) (fs : FS) (p : Path)
    (src dst : Path) (s : St)
    (hsrc : getFileHash h s.fs src = none)
    (hdst : getFileHash h s.fs dst ≠ none)
    (hov : s.autoOv = true) :
    (getFileHash h fs p = none ↔ ∀ c, fsGet fs p ≠ some (Entry.file c)) ∧
    ccKind (getFileHash h s.fs src) (getFileHash h s.fs dst)
      = CCKind.changed ∧
    compareAndCopy h src dst s = Res.err s := by
  refine ⟨?_, ?_, ?_⟩
  · unfold getFileHash
    cases hg : fsGet fs p with
    | none => simp
    | some e =>
      cases e with
      | dir => simp
      | file c =>
        simp only
        exact ⟨fun he => Option.noConfusion he,
          fun hall => absurd rfl (hall c)⟩
  · unfold ccKind
    rw [if_neg hdst, if_pos (by rw [hsrc]; exact fun he => hdst he.symm)]
  · have hcp : copy2 s.fs src dst = none := by
      unfold copy2
      cases hg : fsGet s.fs src with
      | none => rfl
      | some e =>
        cases e with
        | dir => rfl
        | file c =>
          unfold getFileHash at hsrc
          rw [hg] at hsrc
          cases hsrc
    rw [CC_eq_changed_auto hdst
      (by rw [hsrc]; exact fun he => hdst he.symm) hov, hcp]

def fs5 : FS := [(["d"], Entry.file "D")]

theorem C5_counterexample :
    getFileHash hashFn fs5 ["s"] = none ∧
    ccKind (getFileHash hashFn fs5 ["s"]) (getFileHash hashFn fs5 ["d"])
      = CCKind.changed ∧
    compareAndCopy hashFn ["s"] ["d"] ⟨fs5, [], true, false, false, []⟩
      = Res.err ⟨fs5, [], true, false, false, []⟩ := by
  decide

theorem C5_witness :
    (getFileHash hashFn fs5 ["d"] = none ↔
      ∀ c, fsGet fs5 ["d"] ≠ some (Entry.file c)) ∧
    ccKind (getFileHash hashFn fs5 ["s"]) (getFileHash hashFn fs5 ["d"])
      = CCKind.changed ∧
    compareAndCopy hashFn ["s"] ["d"] ⟨fs5, [], true, false, false, []⟩
      = Res.err ⟨fs5, [], true, false, false, []⟩ :=
  C5_notfound_semantics hashFn fs5 ["d"] ["s"] ["d"]
    ⟨fs5, [], true, false, false, []⟩ (by decide) (by decide) (by decide)

theorem runPhase1_cons (h : String → String) (sp dp : Path) (rel : Path)
    (rest : List Path) (s : St) :
    runPhase1 h sp dp (rel :: rest) s =
      if protectedFiles.contains (baseName rel) then runPhase1 h sp dp rest s
      else
        match compareAndCopy h (sp ++ rel) (dp ++ rel) s with
        | Res.err s1 => Res.err s1
        | Res.ok s1 => runPhase1 h sp dp rest s1 := rfl

theorem runPhase1_append (h : String → String) (sp dp : Path)
    (L1 L2 : List Path) (s : St) :
    runPhase1 h sp dp (L1 ++ L2) s =
      match runPhase1 h sp dp L1 s with
      | Res.err s1 => Res.err s1
      | Res.ok s1 => runPhase1 h sp dp L2 s1 := by
  induction L1 generalizing s with
  | nil => rfl
  | cons rel rest ih =>
    rw [List.cons_append]
    simp only [runPhase1_cons]
    by_cases hp : protectedFiles.contains (baseName rel) = true
    · rw [if_pos hp, if_pos hp]
      exact ih s
    · rw [if_neg hp, if_neg hp]
      cases hcc : compareAndCopy h (sp ++ rel) (dp ++ rel) s with
      | err s1 => rfl
      | ok s1 =>
        dsimp only
        exact ih s1

theorem updateFolders_append (h : String → String) (srcDir cfgDir : Path)
    (l1 l2 : List String) (s : St) :
    updateFolders h srcDir cfgDir (l1 ++ l2) s =
      match updateFolders h srcDir cfgDir l1 s with
      | Res.err s1 => Res.err s1
      | Res.ok s1 => updateFolders h srcDir cfgDir l2 s1 := by
  induction l1 generalizing s with
  | nil => rfl
  | cons f rest ih =>
    rw [List.cons_append]
    simp only [updateFolders_cons]
    cases huf : updateFolder h srcDir cfgDir f s with
    | err s1 => rfl
    | ok s1 =>
      dsimp only
      exact ih s1

/-- C6 (amended): a failing per-file copy is not caught inside Update -
wherever it occurs it aborts the run at that point.  The four conjuncts
propagate the raise outwards: past any already-processed prefix of a
folder's walk (the remaining walked paths are never reached), from the
walk to the folder step, past any already-processed folders of the fold,
and out of update_install itself, whose caller run() holds the only
handler. -/
theorem C6_abort (h : String → String) (srcDir cfgDir sp dp : Path) :
    (∀ (L1 rest : List Path) (rel : Path) (s sMid s1 : St),
      runPhase1 h sp dp L1 s = Res.ok sMid →
      protectedFiles.contains (baseName rel) = false →
      compareAndCopy h (sp ++ rel) (dp ++ rel) sMid = Res.err s1 →
      runPhase1 h sp dp (L1 ++ rel :: rest) s = Res.err s1) ∧
    (∀ (f : String) (s s1 : St),
      isDir s.fs (cfgDir ++ [f]) = true →
      runPhase1 h (srcDir ++ [f]) (cfgDir ++ [f])
          (walkFiles s.fs (srcDir ++ [f])) s = Res.err s1 →
      updateFolder h srcDir cfgDir f s = Res.err s1) ∧
    (∀ (fl1 fl2 : List String) (f : String) (s sMid s1 : St),
      updateFolders h srcDir cfgDir fl1 s = Res.ok sMid →
      updateFolder h srcDir cfgDir f sMid = Res.err s1 →
      updateFolders h srcDir cfgDir (fl1 ++ f :: fl2) s = Res.err s1) ∧
    (∀ (s s1 : St),
      updateFolders h srcDir cfgDir coreFolders (updatePrompts s)
        = Res.err s1 →
      updateInstall h srcDir cfgDir s = Res.err s1) := by
  refine ⟨?_, ?_, ?_, ?_⟩
  · intro L1 rest rel s sMid s1 hok hp hcc
    rw [runPhase1_append, hok]
    dsimp only
    rw [runPhase1_cons, hp]
    simp only [Bool.false_eq_true, if_false]
    rw [hcc]
  · intro f s s1 hdir hrp
    unfold updateFolder
    dsimp only
    rw [if_pos hdir, hrp]
  · intro fl1 fl2 f s sMid s1 hok herr
    rw [updateFolders_append, hok]
    dsimp only
    rw [updateFolders_cons, herr]
  · intro s s1 herr
    rw [UI_eq, herr]
    rfl

def fs6 : FS :=
  [(["c"], Entry.dir),
   (["c", "ignis"], Entry.dir),
   (["c", "ignis", "x"], Entry.file "X"),
   (["c", "ignis", "orphan"], Entry.file "O"),
   (["s", "ignis", "x"], Entry.dir),
   (["s", "ignis", "x", "y"], Entry.file "Y"),
   (["s", "ignis", "w"], Entry.dir),
   (["s", "ignis", "w", "v"], Entry.file "V")]

theorem C6_counterexample :
    updateInstall hashFn ["s"] ["c"]
        ⟨fs6, ["y", "y"], false, false, false, []⟩
      = Res.err ⟨fs6, [], true, true, false, []⟩ ∧
    pathExists fs6 ["c", "ignis", "w", "v"] = false ∧
    pathExists fs6 ["c", "ignis", "orphan"] = true := by
  decide

theorem C6_witness :
    updateInstall hashFn ["s"] ["c"]
        ⟨fs6, ["y", "y"], false, false, false, []⟩
      = Res.err ⟨fs6, [], true, true, false, []⟩ := by
  have T := C6_abort hashFn ["s"] ["c"] (["s"] ++ ["ignis"])
    (["c"] ++ ["ignis"])
  apply T.2.2.2
  apply T.2.2.1 [] ["matugen"] "ignis" _
    ⟨fs6, [], true, true, false, []⟩ _ (by decide)
  apply T.2.1 "ignis" _ _ (by decide)
  exact T.1 [] [["w", "v"]] ["x", "y"]
    ⟨fs6, [], true, true, false, []⟩
    ⟨fs6, [], true, true, false, []⟩
    ⟨fs6, [], true, true, false, []⟩
    rfl (by decide) (by decide)

/-- C7 (amended): final_setup - run by Full Install - establishes all
three derived artifacts and creates them only when absent, never touching
an existing binding; Update's tail only ensures preview-colors.scss.
Full Install as a whole can still replace a prior user_settings.json
through its Overwrite choice before final_setup runs (counterexample). -/
theorem C7_artifacts (argv0 srcDir cfgDir : Path) (s s' : St)
    (h : String → String) (srcDir2 cfgDir2 : Path) (s2 s2' : St)
    (hok : finalSetup argv0 srcDir cfgDir s = Res.ok s')
    (hok2 : updateInstall h srcDir2 cfgDir2 s2 = Res.ok s2') :
    (pathExists s'.fs (wallpaperDest s.dryRun cfgDir) = true ∧
     pathExists s'.fs (userSettingsPath cfgDir) = true ∧
     pathExists s'.fs (previewDest cfgDir) = true) ∧
    (∀ q e, (q = wallpaperDest s.dryRun cfgDir ∨ q = userSettingsPath cfgDir
        ∨ q = previewDest cfgDir) → fsGet s.fs q = some e →
      fsGet s'.fs q = some e) ∧
    pathExists s2'.fs (previewDest cfgDir2) = true := by
  obtain ⟨he, hpres⟩ := finalSetup_artifacts hok
  exact ⟨he, fun q e _ hg => hpres q e hg,
    update_preview_exists h srcDir2 cfgDir2 hok2⟩

def env7 : Env :=
  { distro := none
    paruPresent := false
    yayPresent := false
    pacmanOk := true
    cloneOk := true
    makepkgOk := true
    yayAfter := true
    niriPresent := true
    hyprPresent := false
    pkgOk := true
    argv0 := ["exo.py"] }

def fsC7 : FS :=
  [(["c"], Entry.dir),
   (["c", "ignis"], Entry.dir),
   (["c", "ignis", "user_settings.json"], Entry.file "OLD"),
   (["s", "ignis"], Entry.dir),
   (["s", "ignis", "styles"], Entry.dir),
   (["s", "ignis", "app.txt"], Entry.file "APP"),
   (["s", "exodefaults", "config.kdl"], Entry.file "K"),
   (["s", "exodefaults", "default_wallpaper.png"], Entry.file "W"),
   (["s", "exodefaults", "preview-colors.scss"], Entry.file "P"),
   (["exo.py"], Entry.file "SCRIPT")]

def fs7 : FS :=
  [(["c", "ignis"], Entry.dir),
   (["c", "ignis", "styles"], Entry.dir),
   (["s", "exodefaults", "preview-colors.scss"], Entry.file "P")]

theorem C7_counterexample :
    fsGet fsC7 (userSettingsPath ["c"]) = some (Entry.file "OLD") ∧
    fsGet ((fullInstall env7 ["s"] ["c"]
        ⟨fsC7, ["o"], false, false, false, []⟩).st).fs
        (userSettingsPath ["c"]) = some (Entry.file "\x7b\x7d") ∧
    pathExists ((updateInstall hashFn ["s"] ["c"]
        ⟨fs7, [], true, true, false, []⟩).st).fs
        (wallpaperDest false ["c"]) = false ∧
    pathExists ((updateInstall hashFn ["s"] ["c"]
        ⟨fs7, [], true, true, false, []⟩).st).fs
        (userSettingsPath ["c"]) = false := by
  decide

def fsW7 : FS :=
  [(["c"], Entry.dir),
   (["c", "ignis"], Entry.dir),
   (["c", "ignis", "styles"], Entry.dir),
   (["c", "ignis", "user_settings.json"], Entry.file "MINE"),
   (["s", "exodefaults", "default_wallpaper.png"], Entry.file "W"),
   (["s", "exodefaults", "preview-colors.scss"], Entry.file "P"),
   (["exo.py"], Entry.file "SCRIPT")]

def sW7 : St := ⟨fsW7, [], false, false, true, []⟩

def sW7out : St := (finalSetup ["exo.py"] ["s"] ["c"] sW7).st

def sW7b : St := ⟨fs7, [], true, true, false, []⟩

def sW7bout : St := (updateInstall hashFn ["s"] ["c"] sW7b).st

theorem C7_witness :
    (pathExists sW7out.fs (wallpaperDest true ["c"]) = true ∧
     pathExists sW7out.fs (userSettingsPath ["c"]) = true ∧
     pathExists sW7out.fs (previewDest ["c"]) = true) ∧
    (∀ q e, (q = wallpaperDest true ["c"] ∨ q = userSettingsPath ["c"]
        ∨ q = previewDest ["c"]) → fsGet sW7.fs q = some e →
      fsGet sW7out.fs q = some e) ∧
    pathExists sW7bout.fs (previewDest ["c"]) = true :=
  C7_artifacts ["exo.py"] ["s"] ["c"] sW7 sW7out hashFn ["s"] ["c"]
    sW7b sW7bout (by decide) (by decide)

/-- C8: a core folder whose destination is not a directory is skipped
entirely - the folder step returns the state unchanged (no creation, no
copy, no delete, no log entry), and the fold over the remaining folders
proceeds exactly as if the skipped one were not listed. -/
theorem C8_skip (h : String → String) (srcDir cfgDir : Path) (f : String)
    (rest : List String) (s : St)
    (hnd : isDir s.fs (cfgDir ++ [f]) = false) :
    updateFolder h srcDir cfgDir f s = Res.ok s ∧
    updateFolders h srcDir cfgDir (f :: rest) s =
      updateFolders h srcDir cfgDir rest s := by
  have h1 : updateFolder h srcDir cfgDir f s = Res.ok s := by
    unfold updateFolder
    dsimp only
    rw [if_neg (fun he => by rw [hnd] at he; cases he)]
  refine ⟨h1, ?_⟩
  rw [updateFolders_cons, h1]

def fsW8 : FS :=
  [(["c", "ignis"], Entry.dir),
   (["c", "ignis", "styles"], Entry.dir),
   (["s", "exodefaults", "preview-colors.scss"], Entry.file "P")]

theorem C8_witness :
    updateFolder hashFn ["s"] ["c"] "matugen" ⟨fsW8, [], true, true, false, []⟩
      = Res.ok ⟨fsW8, [], true, true, false, []⟩ ∧
    updateFolders hashFn ["s"] ["c"] ("matugen" :: [])
        ⟨fsW8, [], true, true, false, []⟩
      = updateFolders hashFn ["s"] ["c"] []
        ⟨fsW8, [], true, true, false, []⟩ :=
  C8_skip hashFn ["s"] ["c"] "matugen" [] ⟨fsW8, [], true, true, false, []⟩
    (by decide)

/-- C9: orphan handling removes single files only - the delete step is an
os.remove of one path - and a directory entry of the destination tree is
still present after a whole Update run, however the run went. -/
theorem C9_no_dir_removal (h : String → String) (srcDir cfgDir : Path)
    (s : St) (q : Path) (p : Path) (s2 : St)
    (hn : keysNodup s.fs) (hq : fsGet s.fs q = some Entry.dir)
    (hd : s2.autoDel = true) :
    fsGet ((updateInstall h srcDir cfgDir s).st).fs q = some Entry.dir ∧
    (promptAndDelete p s2).fs = fsErase s2.fs p := by
  refine ⟨update_dir_preserve h srcDir cfgDir s q hn hq, ?_⟩
  unfold promptAndDelete
  rw [if_pos hd]

def fsW9 : FS :=
  [(["c", "ignis"], Entry.dir),
   (["c", "ignis", "styles"], Entry.dir),
   (["c", "ignis", "styles", "preview-colors.scss"], Entry.file "P"),
   (["c", "ignis", "o"], Entry.file "O")]

theorem C9_witness :
    fsGet ((updateInstall hashFn ["s"] ["c"]
        ⟨fsW9, [], true, true, false, []⟩).st).fs ["c", "ignis"]
      = some Entry.dir ∧
    (promptAndDelete ["c", "ignis", "o"]
        ⟨fsW9, [], true, true, false, []⟩).fs
      = fsErase fsW9 ["c", "ignis", "o"] :=
  C9_no_dir_removal hashFn ["s"] ["c"] ⟨fsW9, [], true, true, false, []⟩
    ["c", "ignis"] ["c", "ignis", "o"] ⟨fsW9, [], true, true, false, []⟩
    (by unfold keysNodup; decide) (by decide) (by decide)

/-- C10: answering n at either uninstall confirmation returns with the
filesystem exactly as it was - no removal and no modification. -/
theorem C10_uninstall_noop (cfgDir : Path) (s : St) (rest : List String)
    (hans : s.answers = "n" :: rest ∨ s.answers = "y" :: "n" :: rest) :
    (uninstallExo cfgDir s).fs = s.fs :=
  uninstall_n_fs cfgDir s rest hans

theorem C10_witness :
    (uninstallExo ["c"]
        ⟨[(["c", "ignis"], Entry.dir)], ["n"], false, false, false, []⟩).fs
      = [(["c", "ignis"], Entry.dir)] :=
  C10_uninstall_noop ["c"]
    ⟨[(["c", "ignis"], Entry.dir)], ["n"], false, false, false, []⟩ []
    (Or.inl rfl)

end Exo
